import Mathlib

set_option maxRecDepth 200000

/-!
# Verification of autocommiterr's core subsystems

A shallow embedding, over `List Char`, of the two algorithmic subsystems of
the `autocommiterr` repository:

* the Ignore-Safety Resolver of `src/gitUtils.ts` (`ensureGitignoreSafety`,
  with its inner `isIgnored` matcher and recursive `walk`), and
* the Change Digest Compressor of `src/changesSummarizer.ts`
  (`compressToJson` with its inner `serialize` and `escapeStr`).

Strings are modelled as `List Char` (`JStr`); `str` injects Lean string
literals.  The JavaScript regular expressions that the source builds from
ignore patterns always lie in a tiny fragment (literals, the wildcard dot,
and the star quantifier), which is modelled exactly by `RElem` below.  A
quantifier with no preceding atom (as arises because the source's escape
character class omits `*`) is a SyntaxError per the ECMAScript pattern
grammar, modelled as a compile failure (`none`), which the source's
`try`/`catch` turns into "never matches".  Paths are POSIX (`path.sep` is
`/`), matching the environment the tool targets.
-/

/-- Strings as lists of characters, the carrier of the whole embedding. -/
abbrev JStr := List Char

/-- Inject a Lean string literal into the model. -/
def str (s : String) : JStr := s.data

/-- Left brace character (written via a code escape, as everywhere in this
file). -/
def lbr : Char := '\x7b'

/-- Right brace character (written via a code escape). -/
def rbr : Char := '\x7d'

/-! ## Glob-to-regex translation (gitUtils.ts lines 100-104 / 117-125 / 141-147)

The source escapes a fifteen-character class (dash, slash, backslash, caret,
dollar, plus, question mark, dot, parens, pipe, square brackets, braces —
note: the star is absent from it), then rewrites backslash-star to dot-star
and backslash-question-mark to dot.
-/

/-- The character class of `pattern.replace(/[-\/\\^$+?.()|[\]\x7b\x7d]/g, '\\$&')`:
the regex metacharacters that the source escapes.  `*` is not among them. -/
def metaChars : JStr := [ '-', '/', '\\', '^', '$', '+', '?', '.', '(', ')', '|', '[', ']', lbr, rbr]

/-- First replace: escape every character of `metaChars` with a backslash. -/
def escMeta : JStr → JStr
  | [] => []
  | c :: cs => (if c ∈ metaChars then ['\\', c] else [c]) ++ escMeta cs

/-- Second replace: `.replace(/\\\*/g, '.*')` — leftmost, non-overlapping,
replacements not rescanned. -/
def replEscStar : JStr → JStr
  | '\\' :: '*' :: cs => '.' :: '*' :: replEscStar cs
  | c :: cs => c :: replEscStar cs
  | [] => []

/-- Third replace: `.replace(/\\\?/g, '.')`. -/
def replEscQm : JStr → JStr
  | '\\' :: '?' :: cs => '.' :: replEscQm cs
  | c :: cs => c :: replEscQm cs
  | [] => []

/-- The body handed to `new RegExp('^' + esc + '$')`: the composition of the
three replaces of the source. -/
def globTranslate (pat : JStr) : JStr := replEscQm (replEscStar (escMeta pat))

/-! ## The regex fragment produced by the translation -/

/-- Elements of the regexes the source builds: a literal atom, the wildcard
dot, and their starred forms. -/
inductive RElem where
  | lit (c : Char)
  | dot
  | litStar (c : Char)
  | dotStar
deriving DecidableEq, Repr

/-- JavaScript line terminators, which the (non-dotAll) wildcard dot does not
match. -/
def jsLineTerm (c : Char) : Bool :=
  c == '\n' || c == '\r' || c == Char.ofNat 0x2028 || c == Char.ofNat 0x2029

/-- Parse the regex body between the `^`/`$` anchors.  A `\` escape yields a
literal; an unescaped `.` is the wildcard; `*` quantifies the preceding atom
and is a SyntaxError ("nothing to repeat") when there is none — in
particular a body starting with `*` (i.e. a regex starting `^*`) and a
doubled quantifier `**` both fail to compile.  A trailing lone `\` also
fails.  Characters outside `metaChars` and `*` are ordinary literals; no
other unescaped metacharacter can occur in the image of `globTranslate`. -/
def regexParseAux : JStr → List RElem → Option (List RElem)
  | [], acc => some acc.reverse
  | '*' :: _, _ => none
  | ['\\'], _ => none
  | '\\' :: c :: '*' :: rest, acc => regexParseAux rest (.litStar c :: acc)
  | '\\' :: c :: rest, acc => regexParseAux rest (.lit c :: acc)
  | '.' :: '*' :: rest, acc => regexParseAux rest (.dotStar :: acc)
  | '.' :: rest, acc => regexParseAux rest (.dot :: acc)
  | c :: '*' :: rest, acc => regexParseAux rest (.litStar c :: acc)
  | c :: rest, acc => regexParseAux rest (.lit c :: acc)

/-- Compile the translated pattern body. -/
def regexCompile (body : JStr) : Option (List RElem) := regexParseAux body []

/-- Kleene iteration of a literal atom: match the continuation `k` after
consuming any number of copies of `c`. -/
def starLit (c : Char) (k : JStr → Bool) : JStr → Bool
  | [] => k []
  | x :: xs => k (x :: xs) || (c == x && starLit c k xs)

/-- Kleene iteration of the wildcard dot: match the continuation `k` after
consuming any number of non-line-terminator characters. -/
def starDot (k : JStr → Bool) : JStr → Bool
  | [] => k []
  | x :: xs => k (x :: xs) || (!jsLineTerm x && starDot k xs)

/-- Anchored matching of the compiled fragment against the whole string,
the semantics of `re.test(p)` for a `^...$` regex without flags. -/
def rmatch : List RElem → JStr → Bool
  | [], [] => true
  | [], _ :: _ => false
  | .lit _ :: _, [] => false
  | .lit c :: rs, x :: xs => c == x && rmatch rs xs
  | .dot :: _, [] => false
  | .dot :: rs, x :: xs => !jsLineTerm x && rmatch rs xs
  | .litStar c :: rs, s => starLit c (rmatch rs) s
  | .dotStar :: rs, s => starDot (rmatch rs) s

/-- The regex branch shared by `isIgnored` and the required-pattern coverage
loop: translate the pattern, compile `^esc$`, test; a compile failure
(caught by the source's `try`/`catch`) matches nothing. -/
def globRegexMatch (pat p : JStr) : Bool :=
  match regexCompile (globTranslate pat) with
  | some rs => rmatch rs p
  | none => false

/-! ## The ignore-line matcher `isIgnored` (gitUtils.ts lines 106-128) -/

/-- Whether the pattern ends with a slash, i.e. `pat.endsWith('/')`. -/
def endsWithSlash : JStr → Bool
  | [] => false
  | [c] => c == '/'
  | _ :: c :: cs => endsWithSlash (c :: cs)

/-- One iteration of the `isIgnored` loop, for a single existing line:
exact equality, the directory branch for a trailing `/`, then the regex
branch. -/
def lineMatches (pat p : JStr) : Bool :=
  pat == p ||
  (endsWithSlash pat && (p == pat.dropLast || pat.isPrefixOf p)) ||
  globRegexMatch pat p

/-- `isIgnored(relPath)` over a parsed line set (on POSIX the
`relPath.split(path.sep).join('/')` normalization is the identity). -/
def isIgnored (lines : List JStr) (relPath : JStr) : Bool :=
  lines.any (fun pat => lineMatches pat relPath)

/-- One iteration of the required-pattern coverage loop (lines 136-148):
literal equality or the regex branch — no directory branch here. -/
def coverMatches (l req : JStr) : Bool :=
  l == req || globRegexMatch l req

-- sanity examples (glob translation and the missing-`*` behavior)
example : globTranslate (str "*.env*") = str "*\\.env*" := by decide
example : regexCompile (globTranslate (str "*.env*")) = none := by decide
example : globRegexMatch (str ".env*") (str ".envv") = true := by decide
example : globRegexMatch (str ".env*") (str ".env.local") = false := by decide
example : globRegexMatch (str "a?c") (str "abc") = true := by decide
example : lineMatches (str "docx/") (str "docx/sub") = true := by decide
example : lineMatches (str "docx/") (str "docx") = true := by decide

/-! ## Spec-side matcher for claim C1

Modelled from the spec: the spec's matching rule 3 escapes *all* regex
metacharacters (the star included) and then restores backslash-star as
dot-star.  This is the stated intent against which the source's translation
(whose escape class omits the star) is compared. -/

/-- Modelled from the spec: escape all metacharacters, the star included. -/
def specEscMeta : JStr → JStr
  | [] => []
  | c :: cs => (if c ∈ metaChars || c == '*' then ['\\', c] else [c]) ++ specEscMeta cs

/-- Modelled from the spec: the translation of rule 3 with a complete
escape class, then restoring star and question-mark wildcards. -/
def specGlobRegexMatch (pat p : JStr) : Bool :=
  match regexCompile (replEscQm (replEscStar (specEscMeta pat))) with
  | some rs => rmatch rs p
  | none => false

/-- **C1.** The claim (and spec §8) says the glob branch makes `*.env*`
match `.env.local` and `secrets.env.bak` and not `config.json`.  On the
source this fails: the escape class omits `*`, so the translated regex for
`*.env*` begins with a bare `*` quantifier and does not compile ("nothing
to repeat"), the `try`/`catch` treats it as never matching, and none of the
three paths match — while the spec's own translation (star escaped, then
restored as dot-star) gives exactly the three results the claim states. -/
theorem c1_star_env_glob_never_matches :
    regexCompile (globTranslate (str "*.env*")) = none ∧
    globRegexMatch (str "*.env*") (str ".env.local") = false ∧
    globRegexMatch (str "*.env*") (str "secrets.env.bak") = false ∧
    globRegexMatch (str "*.env*") (str "config.json") = false ∧
    lineMatches (str "*.env*") (str ".env.local") = false ∧
    specGlobRegexMatch (str "*.env*") (str ".env.local") = true ∧
    specGlobRegexMatch (str "*.env*") (str "secrets.env.bak") = true ∧
    specGlobRegexMatch (str "*.env*") (str "config.json") = false := by decide

/-- **C9.** A pattern whose glob translation fails to compile is treated as
non-matching by both the path-ignored check (only the exact and directory
branches remain) and the required-pattern coverage check (only literal
equality remains), and such a pattern falls through to the remaining
patterns of the line set. -/
theorem c9_compile_failure_degrades_safely (pat : JStr)
    (h : regexCompile (globTranslate pat) = none) :
    (∀ p, lineMatches pat p =
      (pat == p || (endsWithSlash pat && (p == pat.dropLast || pat.isPrefixOf p)))) ∧
    (∀ req, coverMatches pat req = (pat == req)) ∧
    (∀ rest p, lineMatches pat p = false →
      isIgnored (pat :: rest) p = isIgnored rest p) := by
  refine ⟨fun p => ?_, fun req => ?_, fun rest p hp => ?_⟩
  · simp [lineMatches, globRegexMatch, h]
  · simp [coverMatches, globRegexMatch, h]
  · simp [isIgnored, hp]

/-- Witness for C9 at the pattern `a**`, whose translation `^a**$` has a
doubled quantifier and fails to compile. -/
theorem c9_compile_failure_degrades_safely_witness :
    lineMatches (str "a**") (str "axx") = false ∧
    coverMatches (str "a**") (str "a**") = true := by
  have h := c9_compile_failure_degrades_safely (str "a**") (by decide)
  exact ⟨by rw [h.1 (str "axx")]; decide, by rw [h.2.1 (str "a**")]; decide⟩

/-! ## The Change Digest Compressor (changesSummarizer.ts lines 86-121) -/

/-- A staged-file change record, `{ file, change }`. -/
structure FileChange where
  file : JStr
  change : JStr
deriving DecidableEq, Repr

/-- One global single-character replace pass, `s.replace(/c/g, rep)`. -/
def replChar (c : Char) (rep : JStr) : JStr → JStr
  | [] => []
  | x :: xs => (if x == c then rep else [x]) ++ replChar c rep xs

/-- `escapeStr` (line 96): four sequential global replaces — backslash,
double-quote, newline, carriage return, in that order. -/
def escapeStr (s : JStr) : JStr :=
  replChar '\r' (str "\\r")
    (replChar '\n' (str "\\n")
      (replChar '"' (str "\\\"")
        (replChar '\\' (str "\\\\") s)))

/-- One serialized item (line 92); the verbosity transform `mapFn` is
applied to the change token (every transform of the source ignores its
second, file-name argument). -/
def serItem (mapFn : JStr → JStr) (fc : FileChange) : JStr :=
  str "\x7b\"f\":\"" ++ escapeStr fc.file ++ str "\",\"c\":\"" ++
    escapeStr (mapFn fc.change) ++ str "\"\x7d"

/-- `items.join(',')` of the source. -/
def joinComma : List JStr → JStr
  | [] => []
  | [x] => x
  | x :: y :: rest => x ++ ',' :: joinComma (y :: rest)

/-- `serialize` (lines 91-94): the hand-built digest text, with the space
after the `files` key exactly as in the source. -/
def serialize (arr : List FileChange) (mapFn : JStr → JStr) : JStr :=
  str "\x7b\"files\": [" ++ joinComma (arr.map (serItem mapFn)) ++ str "]\x7d"

/-- The five verbosity transforms (lines 98-103), as data: full token, then
prefixes of length 12, 6, 3, 1. -/
def mapSpecs : List (Option Nat) := [none, some 12, some 6, some 3, some 1]

/-- Interpretation of a verbosity transform: `none` is the identity,
`some n` is `c.slice(0, n)`. -/
def applyMap : Option Nat → JStr → JStr
  | none, c => c
  | some n, c => c.take n

/-- The inner loop (lines 106-112): try `keep` entries, from `n` down to 1,
returning the first serialization within budget. -/
def tryKeep (fcs : List FileChange) (m : Option Nat) (maxLen : Nat) : Nat → Option JStr
  | 0 => none
  | keep + 1 =>
      let s := serialize (fcs.take (keep + 1)) (applyMap m)
      if s.length ≤ maxLen then some s else tryKeep fcs m maxLen keep

/-- The outer loop (line 105): the transforms in order, most detailed
first. -/
def tryAll (fcs : List FileChange) (maxLen : Nat) : Option JStr :=
  mapSpecs.findSome? (fun m => tryKeep fcs m maxLen fcs.length)

/-- `fc.file.split('/')`. -/
def splitChar (sep : Char) (s : JStr) : List JStr :=
  s.foldr
    (fun c acc =>
      if c == sep then [] :: acc
      else match acc with
        | [] => [[c]]
        | a :: as => (c :: a) :: as)
    [[]]

/-- `fc.file.split('/').pop() || fc.file`: the last path segment, or the
whole file string when that segment is empty (the JavaScript falsy
fallback). -/
def jsBasename (file : JStr) : JStr :=
  match (splitChar '/' file).getLast? with
  | some l => if l.isEmpty then file else l
  | none => file

/-- A lowercase hexadecimal digit, for the `\u00..` escapes that
`JSON.stringify` emits for control characters. -/
def hexDigit (n : Nat) : Char :=
  if n < 10 then Char.ofNat (48 + n) else Char.ofNat (87 + n)

/-- A character of the `JSON.stringify` string serialization
(ECMA-262 QuoteJSONString): quote and backslash escaped, the five short
escapes, `\u00..` for the remaining control characters. -/
def jsonQuoteChar (c : Char) : JStr :=
  if c == '"' then ['\\', '"']
  else if c == '\\' then ['\\', '\\']
  else if c == Char.ofNat 8 then ['\\', 'b']
  else if c == '\t' then ['\\', 't']
  else if c == '\n' then ['\\', 'n']
  else if c == Char.ofNat 12 then ['\\', 'f']
  else if c == '\r' then ['\\', 'r']
  else if c.toNat < 32 then
    ['\\', 'u', '0', '0', hexDigit (c.toNat / 16), hexDigit (c.toNat % 16)]
  else [c]

/-- The body (between the quotes) of the `JSON.stringify` serialization of
a string. -/
def jsonQuoteBody (s : JStr) : JStr := s.flatMap jsonQuoteChar

/-- The full `JSON.stringify` serialization of a string. -/
def jsonQuote (s : JStr) : JStr := '"' :: jsonQuoteBody s ++ ['"']

/-- The last-resort fallback (lines 116-120):
`JSON.stringify({files: [{f: basename, c: 'mod'}]})` — produced by the
library serializer, with no spaces and with library string escaping. -/
def fallbackJson (fc : FileChange) : JStr :=
  str "\x7b\"files\":[\x7b\"f\":" ++ jsonQuote (jsBasename fc.file) ++ str ",\"c\":\"mod\"\x7d]\x7d"

/-- `compressToJson` (lines 86-121).  The empty input returns
`JSON.stringify({files: []})`; otherwise the transform-times-keep search
runs, and on total failure the fallback is returned unconditionally. -/
def compressToJson (fileChanges : List FileChange) (maxLen : Nat) : JStr :=
  match fileChanges with
  | [] => str "\x7b\"files\":[]\x7d"
  | fc :: _ =>
      match tryAll fileChanges maxLen with
      | some s => s
      | none => fallbackJson fc

-- sanity examples for the compressor
example :
    compressToJson [⟨ str "a.txt", str "12+/3-"⟩] 400 =
      str "\x7b\"files\": [\x7b\"f\":\"a.txt\",\"c\":\"12+/3-\"\x7d]\x7d" := by decide
example :
    compressToJson [⟨ str "a.txt", str "12+/3-"⟩] 10 =
      str "\x7b\"files\":[\x7b\"f\":\"a.txt\",\"c\":\"mod\"\x7d]\x7d" := by decide
example : compressToJson [] 400 = str "\x7b\"files\":[]\x7d" := by decide
example : escapeStr (str "a\"b\\c\nd") = str "a\\\"b\\\\c\\nd" := by decide
example : jsBasename (str "x/y/z.txt") = str "z.txt" := by decide
example : jsBasename (str "a/") = str "a/" := by decide

/-! ## Compressor lemmas and claims C2 / C7 -/

/-- Whether some transform-times-keep combination fits the budget. -/
def fitsAny (fcs : List FileChange) (maxLen : Nat) : Bool :=
  mapSpecs.any (fun m => (List.range fcs.length).any
    (fun i => (serialize (fcs.take (i + 1)) (applyMap m)).length ≤ maxLen))

theorem tryKeep_some {fcs : List FileChange} {m : Option Nat} {maxLen : Nat} :
    ∀ {n s}, tryKeep fcs m maxLen n = some s →
      ∃ k, 1 ≤ k ∧ k ≤ n ∧ s = serialize (fcs.take k) (applyMap m) ∧ s.length ≤ maxLen := by
  intro n
  induction n with
  | zero => intro s h; simp [tryKeep] at h
  | succ n ih =>
      intro s h
      rw [tryKeep] at h
      split at h
      · exact ⟨n + 1, by omega, le_refl _, by simp_all, by simp_all⟩
      · obtain ⟨k, h1, h2, h3⟩ := ih h
        exact ⟨k, h1, by omega, h3⟩

theorem tryKeep_none {fcs : List FileChange} {m : Option Nat} {maxLen : Nat} :
    ∀ {n}, tryKeep fcs m maxLen n = none →
      ∀ k, 1 ≤ k → k ≤ n → maxLen < (serialize (fcs.take k) (applyMap m)).length := by
  intro n
  induction n with
  | zero => intro _ k h1 h2; omega
  | succ n ih =>
      intro h k h1 h2
      rw [tryKeep] at h
      split at h
      · exact absurd h (by simp)
      · rcases Nat.lt_or_ge k (n + 1) with hk | hk
        · exact ih h k h1 (by omega)
        · have : k = n + 1 := by omega
          subst this
          omega

theorem tryKeep_isSome_of_fit {fcs : List FileChange} {m : Option Nat} {maxLen n k : Nat}
    (h1 : 1 ≤ k) (h2 : k ≤ n)
    (hfit : (serialize (fcs.take k) (applyMap m)).length ≤ maxLen) :
    tryKeep fcs m maxLen n ≠ none := by
  intro hnone
  exact absurd hfit (by simpa using tryKeep_none hnone k h1 h2)

/-- The search succeeds exactly when some combination fits. -/
theorem tryAll_isSome_iff_fitsAny (fcs : List FileChange) (maxLen : Nat) :
    (tryAll fcs maxLen).isSome = fitsAny fcs maxLen := by
  rw [tryAll, fitsAny]
  rcases h : mapSpecs.findSome? (fun m => tryKeep fcs m maxLen fcs.length) with _ | s
  · rw [List.findSome?_eq_none_iff] at h
    symm
    simp only [Option.isSome_none, List.any_eq_false]
    intro m hm hrange
    simp only [List.any_eq_true, List.mem_range] at hrange
    obtain ⟨i, hi, hfit⟩ := hrange
    exact tryKeep_isSome_of_fit (k := i + 1) (by omega) (by omega) (by simpa using hfit) (h m hm)
  · obtain ⟨m, hm, hsome⟩ := List.exists_of_findSome?_eq_some h
    obtain ⟨k, h1, h2, h3, hlen⟩ := tryKeep_some hsome
    symm
    simp only [Option.isSome_some, List.any_eq_true]
    refine ⟨m, hm, ?_⟩
    simp only [List.any_eq_true, List.mem_range]
    refine ⟨k - 1, by omega, ?_⟩
    have hk : k - 1 + 1 = k := by omega
    rw [hk, ← h3]
    simpa using hlen

/-- The last path segment as the claim words it (`split('/')` then the
final element), without the falsy fallback the code applies. -/
def specLastSegment (s : JStr) : JStr := ((splitChar '/' s).getLast?).getD []

/-- **C2 (counterexample).** For the input file `a/` and budget 1 nothing
fits, and the fallback's file field is the whole string `a/` (the falsy
fallback of `split('/').pop() || fc.file`), not the last path segment,
which is empty — so the output differs from the claim's predicted digest. -/
theorem c2_counterexample :
    compressToJson [⟨ str "a/", str "x"⟩] 1 =
      str "\x7b\"files\":[\x7b\"f\":\"a/\",\"c\":\"mod\"\x7d]\x7d" ∧
    specLastSegment (str "a/") = [] ∧
    compressToJson [⟨ str "a/", str "x"⟩] 1 ≠
      str "\x7b\"files\":[\x7b\"f\":\"\",\"c\":\"mod\"\x7d]\x7d" := by decide

/-- **C2 (amended).** For every non-empty input and every budget: when some
transform-times-keep combination fits, the output is such a serialization
and its length is within budget; when none fits, the output is
unconditionally (without a budget re-check) the library-serialized minimal
fallback for the first file, whose file field is the last path segment of
the first file — or the whole file string when that segment is empty — and
whose change token is the literal `mod`. -/
theorem c2_amended (fcs : List FileChange) (hne : fcs ≠ []) (maxLen : Nat) :
    (fitsAny fcs maxLen = true →
      (compressToJson fcs maxLen).length ≤ maxLen ∧
      ∃ m ∈ mapSpecs, ∃ k, 1 ≤ k ∧ k ≤ fcs.length ∧
        compressToJson fcs maxLen = serialize (fcs.take k) (applyMap m)) ∧
    (fitsAny fcs maxLen = false →
      ∃ fc rest, fcs = fc :: rest ∧ compressToJson fcs maxLen = fallbackJson fc) := by
  obtain ⟨fc, rest, rfl⟩ : ∃ fc rest, fcs = fc :: rest := by
    cases fcs with
    | nil => exact absurd rfl hne
    | cons a l => exact ⟨a, l, rfl⟩
  constructor
  · intro hfit
    rw [← tryAll_isSome_iff_fitsAny] at hfit
    rcases h : tryAll (fc :: rest) maxLen with _ | s
    · rw [h] at hfit; simp at hfit
    · have hout : compressToJson (fc :: rest) maxLen = s := by
        rw [compressToJson, h]
      obtain ⟨m, hm, hsome⟩ := List.exists_of_findSome?_eq_some h
      obtain ⟨k, h1, h2, h3, hlen⟩ := tryKeep_some hsome
      exact ⟨by rw [hout]; omega, m, hm, k, h1, h2, by rw [hout, h3]⟩
  · intro hfit
    rw [← tryAll_isSome_iff_fitsAny] at hfit
    rcases h : tryAll (fc :: rest) maxLen with _ | s
    · exact ⟨fc, rest, rfl, by rw [compressToJson, h]⟩
    · rw [h] at hfit; simp at hfit

/-- Witness for C2 at a fitting input and at a non-fitting one. -/
theorem c2_amended_witness :
    (compressToJson [⟨ str "a.txt", str "12+/3-"⟩] 400).length ≤ 400 ∧
    compressToJson [⟨ str "a.txt", str "12+/3-"⟩] 10 =
      fallbackJson ⟨ str "a.txt", str "12+/3-"⟩ := by
  constructor
  · exact ((c2_amended [⟨ str "a.txt", str "12+/3-"⟩] (by decide) 400).1 (by decide)).1
  · obtain ⟨fc, rest, heq, hout⟩ :=
      (c2_amended [⟨ str "a.txt", str "12+/3-"⟩] (by decide) 10).2 (by decide)
    cases heq
    exact hout

/-- **C7 (counterexample).** For the empty input the full-fidelity
serialization (13 characters, with the space the hand-built serializer puts
after the key) fits the budget 400, yet the output is the 12-character
library form without the space — the claim fails on the empty list. -/
theorem c7_counterexample :
    (serialize [] (applyMap none)).length ≤ 400 ∧
    compressToJson [] 400 ≠ serialize [] (applyMap none) := by decide

/-- **C7 (amended).** For every *non-empty* input: if the full-fidelity
serialization fits the budget, the output is exactly it; and every
non-fallback output is a serialization of a prefix of the input (entries in
input order, truncation drops only the tail). -/
theorem c7_amended (fcs : List FileChange) (hne : fcs ≠ []) (maxLen : Nat) :
    ((serialize fcs (applyMap none)).length ≤ maxLen →
      compressToJson fcs maxLen = serialize fcs (applyMap none)) ∧
    ((∃ m ∈ mapSpecs, ∃ k, 1 ≤ k ∧ k ≤ fcs.length ∧
        compressToJson fcs maxLen = serialize (fcs.take k) (applyMap m)) ∨
      (∃ fc rest, fcs = fc :: rest ∧ compressToJson fcs maxLen = fallbackJson fc)) := by
  obtain ⟨fc, rest, rfl⟩ : ∃ fc rest, fcs = fc :: rest := by
    cases fcs with
    | nil => exact absurd rfl hne
    | cons a l => exact ⟨a, l, rfl⟩
  constructor
  · intro hfit
    have hlen : (fc :: rest).length = rest.length + 1 := by simp
    have htk : tryKeep (fc :: rest) none maxLen (rest.length + 1) =
        some (serialize (fc :: rest) (applyMap none)) := by
      rw [tryKeep]
      have : (fc :: rest).take (rest.length + 1) = fc :: rest := by
        apply List.take_of_length_le; simp
      rw [this]
      simp only [hfit, if_true]
    rw [compressToJson, tryAll, mapSpecs]
    rw [List.findSome?_cons_of_isSome]
    · rw [hlen, htk]
    · rw [hlen, htk]; simp
  · rcases h : tryAll (fc :: rest) maxLen with _ | s
    · exact Or.inr ⟨fc, rest, rfl, by rw [compressToJson, h]⟩
    · obtain ⟨m, hm, hsome⟩ := List.exists_of_findSome?_eq_some h
      obtain ⟨k, h1, h2, h3, _⟩ := tryKeep_some hsome
      exact Or.inl ⟨m, hm, k, h1, h2, by rw [compressToJson, h, h3]⟩

/-- Witness for C7: a two-entry input whose full serialization fits. -/
theorem c7_amended_witness :
    compressToJson [⟨ str "a.txt", str "1+/2-"⟩, ⟨ str "b.ts", str "3+/0-"⟩] 400 =
      serialize [⟨ str "a.txt", str "1+/2-"⟩, ⟨ str "b.ts", str "3+/0-"⟩] (applyMap none) :=
  (c7_amended [⟨ str "a.txt", str "1+/2-"⟩, ⟨ str "b.ts", str "3+/0-"⟩]
    (by decide) 400).1 (by decide)

/-! ## A JSON parser (ECMA-404 / `JSON.parse`), used to state parseability

The parser is the analysis-side meaning of "parseable JSON": values, with
numbers kept as their lexed raw token.  It is fuel-indexed (single
structural recursion, so concrete inputs evaluate by `decide`).  One
modelling remark: a `\u` escape decodes to the scalar of its four hex
digits; surrogate-pair recombination is not modelled (no theorem below
depends on it — the serializers under study only emit `\u00..`). -/

/-- JSON values; numbers are kept as their raw lexed token. -/
inductive JVal where
  | null
  | bool (b : Bool)
  | num (raw : JStr)
  | jstr (s : JStr)
  | arr (elems : List JVal)
  | obj (fields : List (JStr × JVal))
deriving Repr

/-- JSON insignificant whitespace. -/
def jsonWs (c : Char) : Bool :=
  c == ' ' || c == '\t' || c == '\n' || c == '\r'

/-- Skip insignificant whitespace. -/
def skipWs : JStr → JStr
  | [] => []
  | c :: rest => if jsonWs c then skipWs rest else c :: rest

/-- A hexadecimal digit's value (both cases accepted). -/
def hexVal (c : Char) : Option Nat :=
  if '0' ≤ c ∧ c ≤ '9' then some (c.toNat - 48)
  else if 'a' ≤ c ∧ c ≤ 'f' then some (c.toNat - 87)
  else if 'A' ≤ c ∧ c ≤ 'F' then some (c.toNat - 55)
  else none

/-- The single-character string escapes of JSON. -/
def escCharOf (e : Char) : Option Char :=
  if e == '"' then some '"'
  else if e == '\\' then some '\\'
  else if e == '/' then some '/'
  else if e == 'b' then some (Char.ofNat 8)
  else if e == 'f' then some (Char.ofNat 12)
  else if e == 'n' then some '\n'
  else if e == 'r' then some '\r'
  else if e == 't' then some '\t'
  else none

/-- Parse a JSON string body after the opening quote, up to and including
the closing quote; unescaped control characters are rejected. -/
def parseStringBody : JStr → Option (JStr × JStr)
  | [] => none
  | '"' :: rest => some ([], rest)
  | '\\' :: 'u' :: h1 :: h2 :: h3 :: h4 :: rest =>
      match hexVal h1, hexVal h2, hexVal h3, hexVal h4 with
      | some v1, some v2, some v3, some v4 =>
          (match parseStringBody rest with
           | some (s, r) => some (Char.ofNat (4096 * v1 + 256 * v2 + 16 * v3 + v4) :: s, r)
           | none => none)
      | _, _, _, _ => none
  | '\\' :: e :: rest =>
      match escCharOf e with
      | some d =>
          (match parseStringBody rest with
           | some (s, r) => some (d :: s, r)
           | none => none)
      | none => none
  | c :: rest =>
      if c.toNat < 32 then none
      else
        match parseStringBody rest with
        | some (s, r) => some (c :: s, r)
        | none => none

/-- Split off a (possibly empty) run of leading decimal digits. -/
def spanDigits : JStr → (JStr × JStr)
  | [] => ([], [])
  | c :: rest =>
      if c.isDigit then
        let (d, r) := spanDigits rest
        (c :: d, r)
      else ([], c :: rest)

/-- The integer part of a JSON number: `0`, or a nonzero digit followed by
digits. -/
def parseIntPart : JStr → Option (JStr × JStr)
  | [] => none
  | c :: rest =>
      if c == '0' then some ([ '0'], rest)
      else if c.isDigit then
        let (d, r) := spanDigits rest
        some (c :: d, r)
      else none

/-- The optional fraction part: a dot must be followed by at least one
digit. -/
def parseFrac : JStr → Option (JStr × JStr)
  | '.' :: rest =>
      match rest with
      | c :: _ =>
          if c.isDigit then
            let (d, r) := spanDigits rest
            some ( '.' :: d, r)
          else none
      | [] => none
  | s => some ([], s)

/-- The optional exponent part: `e`/`E`, an optional sign, then at least
one digit. -/
def parseExp : JStr → Option (JStr × JStr)
  | c :: rest =>
      if c == 'e' || c == 'E' then
        let (sgn, rest2) :=
          match rest with
          | s :: r2 => if s == '+' || s == '-' then ([s], r2) else ([], s :: r2)
          | [] => ([], [])
        match rest2 with
        | d :: _ =>
            if d.isDigit then
              let (ds, r3) := spanDigits rest2
              some (c :: sgn ++ ds, r3)
            else none
        | [] => none
      else some ([], c :: rest)
  | [] => some ([], [])

/-- Lex a JSON number token. -/
def parseNumber (s : JStr) : Option (JStr × JStr) :=
  let (sgn, s1) :=
    match s with
    | '-' :: r => ([ '-'], r)
    | r => (([] : JStr), r)
  match parseIntPart s1 with
  | none => none
  | some (ip, s2) =>
      match parseFrac s2 with
      | none => none
      | some (fp, s3) =>
          match parseExp s3 with
          | none => none
          | some (ep, s4) => some (sgn ++ ip ++ fp ++ ep, s4)

/-- Parser nonterminals: a value, the tail of an array after its first
element, the tail of an object after its first member, one member. -/
inductive PReq where
  | val
  | arrTail
  | objTail
  | member

/-- Parser results, one shape per nonterminal. -/
inductive POut where
  | val (v : JVal)
  | vals (vs : List JVal)
  | fields (fs : List (JStr × JVal))
  | memb (k : JStr) (v : JVal)

/-- The recursive descent itself, indexed by fuel (structural, so concrete
inputs evaluate inside `decide`). -/
def parseF : Nat → PReq → JStr → Option (POut × JStr)
  | 0, _, _ => none
  | fuel + 1, PReq.val, s =>
      match skipWs s with
      | [] => none
      | c :: rest =>
        if c == '"' then
          match parseStringBody rest with
          | some (cs, r) => some (POut.val (JVal.jstr cs), r)
          | none => none
        else if c == '[' then
          match skipWs rest with
          | ']' :: r => some (POut.val (JVal.arr []), r)
          | _ =>
            match parseF fuel PReq.val rest with
            | some (POut.val v, r) =>
                (match parseF fuel PReq.arrTail r with
                 | some (POut.vals vs, r2) => some (POut.val (JVal.arr (v :: vs)), r2)
                 | _ => none)
            | _ => none
        else if c == '\x7b' then
          match skipWs rest with
          | [] => none
          | c2 :: r2 =>
            if c2 == '\x7d' then some (POut.val (JVal.obj []), r2)
            else
              match parseF fuel PReq.member rest with
              | some (POut.memb k v, r) =>
                  (match parseF fuel PReq.objTail r with
                   | some (POut.fields fs, r3) => some (POut.val (JVal.obj ((k, v) :: fs)), r3)
                   | _ => none)
              | _ => none
        else if c == 't' then
          match rest with
          | 'r' :: 'u' :: 'e' :: r => some (POut.val (JVal.bool true), r)
          | _ => none
        else if c == 'f' then
          match rest with
          | 'a' :: 'l' :: 's' :: 'e' :: r => some (POut.val (JVal.bool false), r)
          | _ => none
        else if c == 'n' then
          match rest with
          | 'u' :: 'l' :: 'l' :: r => some (POut.val JVal.null, r)
          | _ => none
        else
          match parseNumber (c :: rest) with
          | some (tok, r) => some (POut.val (JVal.num tok), r)
          | none => none
  | fuel + 1, PReq.member, s =>
      match skipWs s with
      | [] => none
      | c :: rest =>
        if c == '"' then
          match parseStringBody rest with
          | some (k, r) =>
            (match skipWs r with
             | ':' :: r2 =>
               (match parseF fuel PReq.val r2 with
                | some (POut.val v, r3) => some (POut.memb k v, r3)
                | _ => none)
             | _ => none)
          | none => none
        else none
  | fuel + 1, PReq.arrTail, s =>
      match skipWs s with
      | ']' :: r => some (POut.vals [], r)
      | ',' :: r =>
          match parseF fuel PReq.val r with
          | some (POut.val v, r2) =>
            (match parseF fuel PReq.arrTail r2 with
             | some (POut.vals vs, r3) => some (POut.vals (v :: vs), r3)
             | _ => none)
          | _ => none
      | _ => none
  | fuel + 1, PReq.objTail, s =>
      match skipWs s with
      | [] => none
      | c :: rest =>
        if c == '\x7d' then some (POut.fields [], rest)
        else if c == ',' then
          match parseF fuel PReq.member rest with
          | some (POut.memb k v, r2) =>
            (match parseF fuel PReq.objTail r2 with
             | some (POut.fields fs, r3) => some (POut.fields ((k, v) :: fs), r3)
             | _ => none)
          | _ => none
        else none

/-- `JSON.parse` as a partial function to values: one value, possibly
surrounded by whitespace, nothing else. -/
def jsonParse (s : JStr) : Option JVal :=
  match parseF (s.length + 1) PReq.val s with
  | some (POut.val v, r) => if (skipWs r).isEmpty then some v else none
  | _ => none

-- sanity examples for the parser
example : jsonParse (str "\x7b\"files\":[]\x7d") =
    some (JVal.obj [( str "files", JVal.arr [])]) := rfl
example : jsonParse (str " [1, \"a\\n\", true, null] ") =
    some (JVal.arr [JVal.num [ '1'], JVal.jstr (str "a\n"), JVal.bool true, JVal.null]) := rfl
example : jsonParse (str "\x7b\"f\": \"a\tb\"\x7d") = none := rfl
example : jsonParse (str "01") = none := rfl
example : jsonParse (str "-1.5e+10") = some (JVal.num (str "-1.5e+10")) := rfl
example : jsonParse (str "[1,]") = none := rfl
example : jsonParse (str "\"\\u001f\"") = some (JVal.jstr [Char.ofNat 31]) := rfl

/-! ## Round trips: the two string serializers against the parser -/

/-- Characters the manual `escapeStr` serializes losslessly into a JSON
string: printable range, or one of the two escaped control characters. -/
def goodChar (c : Char) : Bool := 32 ≤ c.toNat || c == '\n' || c == '\r'

/-- All characters of a string are `goodChar`. -/
def goodChars (s : JStr) : Bool := s.all goodChar

/-- The per-character form of `escapeStr` (the four sequential replaces act
independently on each character). -/
def escChar1 (c : Char) : JStr :=
  if c == '\\' then ['\\', '\\']
  else if c == '"' then ['\\', '"']
  else if c == '\n' then ['\\', 'n']
  else if c == '\r' then ['\\', 'r']
  else [c]

theorem replChar_append (c : Char) (rep x y : JStr) :
    replChar c rep (x ++ y) = replChar c rep x ++ replChar c rep y := by
  induction x with
  | nil => rfl
  | cons a as ih => simp [replChar, ih]

theorem escapeStr_cons (c : Char) (s : JStr) :
    escapeStr (c :: s) = escChar1 c ++ escapeStr s := by
  by_cases h1 : c = '\\'
  · subst h1; rfl
  · by_cases h2 : c = '"'
    · subst h2; rfl
    · by_cases h3 : c = '\n'
      · subst h3; rfl
      · by_cases h4 : c = '\r'
        · subst h4; rfl
        · simp [escapeStr, replChar, escChar1, h1, h2, h3, h4]

theorem parseStringBody_escaped (s : JStr) (hgood : goodChars s = true) :
    ∀ rest, parseStringBody (escapeStr s ++ '"' :: rest) = some (s, rest) := by
  induction s with
  | nil => intro rest; rfl
  | cons c cs ih =>
      have hg : goodChar c = true ∧ goodChars cs = true := by
        simpa [goodChars] using hgood
      intro rest
      rw [escapeStr_cons, List.append_assoc]
      by_cases h1 : c = '\\'
      · subst h1
        simp [escChar1, parseStringBody, escCharOf, ih hg.2 rest]
      · by_cases h2 : c = '"'
        · subst h2
          simp [escChar1, parseStringBody, escCharOf, ih hg.2 rest]
        · by_cases h3 : c = '\n'
          · subst h3
            simp [escChar1, parseStringBody, escCharOf, ih hg.2 rest]
          · by_cases h4 : c = '\r'
            · subst h4
              simp [escChar1, parseStringBody, escCharOf, ih hg.2 rest]
            · have hc32 : 32 ≤ c.toNat := by
                have := hg.1
                simp [goodChar, h3, h4] at this
                exact this
              simp [escChar1, h1, h2, h3, h4, parseStringBody,
                Nat.not_lt_of_le hc32, ih hg.2 rest]

theorem hexVal_hexDigit : ∀ m < 16, hexVal (hexDigit m) = some m := by decide

theorem parseStringBody_quoted (s : JStr) :
    ∀ rest, parseStringBody (jsonQuoteBody s ++ '"' :: rest) = some (s, rest) := by
  induction s with
  | nil => intro rest; rfl
  | cons c cs ih =>
      intro rest
      have hq : jsonQuoteBody (c :: cs) = jsonQuoteChar c ++ jsonQuoteBody cs := by
        simp [jsonQuoteBody]
      rw [hq, List.append_assoc]
      by_cases h1 : c = '"'
      · subst h1; simp [jsonQuoteChar, parseStringBody, escCharOf, ih rest]
      · by_cases h2 : c = '\\'
        · subst h2; simp [jsonQuoteChar, parseStringBody, escCharOf, ih rest]
        · by_cases h3 : c = Char.ofNat 8
          · subst h3; simp [jsonQuoteChar, parseStringBody, escCharOf, ih rest]
          · by_cases h4 : c = '\t'
            · subst h4; simp [jsonQuoteChar, parseStringBody, escCharOf, ih rest]
            · by_cases h5 : c = '\n'
              · subst h5; simp [jsonQuoteChar, parseStringBody, escCharOf, ih rest]
              · by_cases h6 : c = Char.ofNat 12
                · subst h6; simp [jsonQuoteChar, parseStringBody, escCharOf, ih rest]
                · by_cases h7 : c = '\r'
                  · subst h7; simp [jsonQuoteChar, parseStringBody, escCharOf, ih rest]
                  · by_cases h8 : c.toNat < 32
                    · have hhi := hexVal_hexDigit (c.toNat / 16) (by omega)
                      have hlo := hexVal_hexDigit (c.toNat % 16) (by omega)
                      have h0 : hexVal '0' = some 0 := rfl
                      have harith : 16 * (c.toNat / 16) + c.toNat % 16 = c.toNat := by omega
                      simp [jsonQuoteChar, h1, h2, h3, h4, h5, h6, h7, h8, parseStringBody,
                        h0, hhi, hlo, ih rest, harith]
                    · simp [jsonQuoteChar, h1, h2, h3, h4, h5, h6, h7, h8, parseStringBody,
                        ih rest]

/-- The parsed value of one serialized item. -/
def itemVal (mapFn : JStr → JStr) (fc : FileChange) : JVal :=
  JVal.obj [( str "f", JVal.jstr fc.file), ( str "c", JVal.jstr (mapFn fc.change))]

set_option maxHeartbeats 3200000 in
theorem parseF_item {F : Nat} (hF : 4 ≤ F) (mapFn : JStr → JStr) (fc : FileChange)
    (hf : goodChars fc.file = true) (hc : goodChars (mapFn fc.change) = true) (rest : JStr) :
    parseF F PReq.val (serItem mapFn fc ++ rest) = some (POut.val (itemVal mapFn fc), rest) := by
  obtain ⟨k, rfl⟩ : ∃ k, F = k + 4 := ⟨F - 4, by omega⟩
  have hfile := parseStringBody_escaped fc.file hf
  have hch := parseStringBody_escaped (mapFn fc.change) hc
  have hkeyf : ∀ X : JStr, parseStringBody ('f' :: '"' :: X) = some ([ 'f'], X) := by
    intro X; simp [parseStringBody]
  have hkeyc : ∀ X : JStr, parseStringBody ('c' :: '"' :: X) = some ([ 'c'], X) := by
    intro X; simp [parseStringBody]
  have hA : str "\x7b\"f\":\"" = ['\x7b', '"', 'f', '"', ':', '"'] := rfl
  have hB : str "\",\"c\":\"" = ['"', ',', '"', 'c', '"', ':', '"'] := rfl
  have hC : str "\"\x7d" = ['"', '\x7d'] := rfl
  have hS : serItem mapFn fc ++ rest =
      '\x7b' :: '"' :: 'f' :: '"' :: ':' :: '"' ::
        (escapeStr fc.file ++ '"' :: ',' :: '"' :: 'c' :: '"' :: ':' :: '"' ::
          (escapeStr (mapFn fc.change) ++ '"' :: '\x7d' :: rest)) := by
    simp [serItem, hA, hB, hC, List.append_assoc]
  rw [hS]
  have e1 : (k + 4 : Nat) = (k + 3) + 1 := rfl
  have e2 : (k + 3 : Nat) = (k + 2) + 1 := rfl
  have e3 : (k + 2 : Nat) = (k + 1) + 1 := rfl
  simp [parseF, skipWs, jsonWs, e1, e2, e3, hkeyf, hkeyc, hfile, hch, itemVal]
  exact ⟨rfl, rfl⟩

/-- The parsed value of a whole serialized digest. -/
def filesVal (arr : List FileChange) (mapFn : JStr → JStr) : JVal :=
  JVal.obj [( str "files", JVal.arr (arr.map (itemVal mapFn)))]

/-- The parsed value of the last-resort fallback digest. -/
def fallbackVal (fc : FileChange) : JVal :=
  JVal.obj [( str "files", JVal.arr [JVal.obj
    [( str "f", JVal.jstr (jsBasename fc.file)), ( str "c", JVal.jstr (str "mod"))]])]

/-- The serialized text that remains after the first item of an array:
comma-separated further items, then the closing bracket. -/
def itemsTailStr (mapFn : JStr → JStr) (arr : List FileChange) (X : JStr) : JStr :=
  match arr with
  | [] => ']' :: X
  | fc :: rest => ',' :: (serItem mapFn fc ++ itemsTailStr mapFn rest X)

theorem joinComma_shape (mapFn : JStr → JStr) :
    ∀ (arr : List FileChange) (fc : FileChange) (Z : JStr),
      joinComma ((fc :: arr).map (serItem mapFn)) ++ ']' :: Z =
        serItem mapFn fc ++ itemsTailStr mapFn arr Z := by
  intro arr
  induction arr with
  | nil => intro fc Z; simp [joinComma, itemsTailStr]
  | cons b r ih =>
      intro fc Z
      simp only [List.map_cons, joinComma, List.append_assoc, List.cons_append,
        itemsTailStr]
      rw [← List.map_cons, ih b Z]

theorem parseF_itemsTail (mapFn : JStr → JStr) :
    ∀ (arr : List FileChange) (F : Nat), 5 * arr.length + 1 ≤ F →
      (∀ fc ∈ arr, goodChars fc.file = true ∧ goodChars (mapFn fc.change) = true) →
      ∀ X, parseF F PReq.arrTail (itemsTailStr mapFn arr X) =
        some (POut.vals (arr.map (itemVal mapFn)), X) := by
  intro arr
  induction arr with
  | nil =>
      intro F hF hg X
      obtain ⟨k, rfl⟩ : ∃ k, F = k + 1 := ⟨F - 1, by omega⟩
      simp [itemsTailStr, parseF, skipWs, jsonWs]
  | cons fc rest ih =>
      intro F hF hg X
      obtain ⟨k, rfl⟩ : ∃ k, F = k + 1 := ⟨F - 1, by omega⟩
      have hfc := hg fc (List.mem_cons_self fc rest)
      have hitem := parseF_item (show 4 ≤ k by simp at hF; omega) mapFn fc hfc.1 hfc.2
        (itemsTailStr mapFn rest X)
      have htail := ih k (by simp at hF ⊢; omega)
        (fun b hb => hg b (List.mem_cons_of_mem _ hb)) X
      simp [itemsTailStr, parseF, skipWs, jsonWs, hitem, htail]

theorem serItem_shape (mapFn : JStr → JStr) (fc : FileChange) (Y : JStr) :
    serItem mapFn fc ++ Y =
      '\x7b' :: '"' :: 'f' :: '"' :: ':' :: '"' ::
        (escapeStr fc.file ++ '"' :: ',' :: '"' :: 'c' :: '"' :: ':' :: '"' ::
          (escapeStr (mapFn fc.change) ++ '"' :: '\x7d' :: Y)) := by
  have hA : str "\x7b\"f\":\"" = ['\x7b', '"', 'f', '"', ':', '"'] := rfl
  have hB : str "\",\"c\":\"" = ['"', ',', '"', 'c', '"', ':', '"'] := rfl
  have hC : str "\"\x7d" = ['"', '\x7d'] := rfl
  simp [serItem, hA, hB, hC, List.append_assoc]

set_option maxHeartbeats 3200000 in
theorem parseF_serialize (mapFn : JStr → JStr) (fc : FileChange) (arr : List FileChange)
    (hg : ∀ b ∈ fc :: arr, goodChars b.file = true ∧ goodChars (mapFn b.change) = true)
    {F : Nat} (hF : 5 * arr.length + 12 ≤ F) (X : JStr) :
    parseF F PReq.val (serialize (fc :: arr) mapFn ++ X) =
      some (POut.val (filesVal (fc :: arr) mapFn), X) := by
  obtain ⟨m, rfl⟩ : ∃ m, F = m + 3 := ⟨F - 3, by omega⟩
  have hfc := hg fc (List.mem_cons_self fc arr)
  have hitem := parseF_item (show 4 ≤ m by omega) mapFn fc hfc.1 hfc.2
    (itemsTailStr mapFn arr ('\x7d' :: X))
  have htail := parseF_itemsTail mapFn arr m (by simp at hF ⊢; omega)
    (fun b hb => hg b (List.mem_cons_of_mem _ hb)) ('\x7d' :: X)
  have hkey : ∀ Y : JStr, parseStringBody ('f' :: 'i' :: 'l' :: 'e' :: 's' :: '"' :: Y) =
      some ([ 'f', 'i', 'l', 'e', 's'], Y) := by
    intro Y; simp [parseStringBody]
  have hitemE : parseF m PReq.val
      ('\x7b' :: '"' :: 'f' :: '"' :: ':' :: '"' ::
        (escapeStr fc.file ++ '"' :: ',' :: '"' :: 'c' :: '"' :: ':' :: '"' ::
          (escapeStr (mapFn fc.change) ++ '"' :: '\x7d' ::
            itemsTailStr mapFn arr ('\x7d' :: X)))) =
      some (POut.val (itemVal mapFn fc), itemsTailStr mapFn arr ('\x7d' :: X)) := by
    rw [← serItem_shape]; exact hitem
  have hshape : serialize (fc :: arr) mapFn ++ X =
      '\x7b' :: '"' :: 'f' :: 'i' :: 'l' :: 'e' :: 's' :: '"' :: ':' :: ' ' :: '[' ::
        ('\x7b' :: '"' :: 'f' :: '"' :: ':' :: '"' ::
          (escapeStr fc.file ++ '"' :: ',' :: '"' :: 'c' :: '"' :: ':' :: '"' ::
            (escapeStr (mapFn fc.change) ++ '"' :: '\x7d' ::
              itemsTailStr mapFn arr ('\x7d' :: X)))) := by
    have hA : str "\x7b\"files\": [" =
        ['\x7b', '"', 'f', 'i', 'l', 'e', 's', '"', ':', ' ', '['] := rfl
    have hB : str "]\x7d" = [']', '\x7d'] := rfl
    rw [serialize, hA, hB]
    rw [← serItem_shape]
    have := joinComma_shape mapFn arr fc ('\x7d' :: X)
    simp only [List.append_assoc, List.cons_append, List.nil_append] at this ⊢
    rw [this]
  rw [hshape]
  have e1 : (m + 3 : Nat) = (m + 2) + 1 := rfl
  have e2 : (m + 2 : Nat) = (m + 1) + 1 := rfl
  simp [parseF, skipWs, jsonWs, e1, e2, hkey, hitemE, htail, filesVal, itemVal]
  exact rfl

set_option maxHeartbeats 3200000 in
theorem parseF_fallback (fc : FileChange) {F : Nat} (hF : 7 ≤ F) (X : JStr) :
    parseF F PReq.val (fallbackJson fc ++ X) = some (POut.val (fallbackVal fc), X) := by
  obtain ⟨m, rfl⟩ : ∃ m, F = m + 6 := ⟨F - 6, by omega⟩
  have hb := parseStringBody_quoted (jsBasename fc.file)
  have hkey : ∀ Y : JStr, parseStringBody ('f' :: 'i' :: 'l' :: 'e' :: 's' :: '"' :: Y) =
      some ([ 'f', 'i', 'l', 'e', 's'], Y) := by
    intro Y; simp [parseStringBody]
  have hkeyf : ∀ Y : JStr, parseStringBody ('f' :: '"' :: Y) = some ([ 'f'], Y) := by
    intro Y; simp [parseStringBody]
  have hkeyc : ∀ Y : JStr, parseStringBody ('c' :: '"' :: Y) = some ([ 'c'], Y) := by
    intro Y; simp [parseStringBody]
  have hmod : ∀ Y : JStr, parseF m PReq.val ('"' :: 'm' :: 'o' :: 'd' :: '"' :: Y) =
      some (POut.val (JVal.jstr [ 'm', 'o', 'd']), Y) := by
    intro Y
    obtain ⟨n, rfl⟩ : ∃ n, m = n + 1 := ⟨m - 1, by omega⟩
    simp [parseF, skipWs, jsonWs, parseStringBody]
  have hshape : fallbackJson fc ++ X =
      '\x7b' :: '"' :: 'f' :: 'i' :: 'l' :: 'e' :: 's' :: '"' :: ':' :: '[' ::
        '\x7b' :: '"' :: 'f' :: '"' :: ':' :: '"' ::
          (jsonQuoteBody (jsBasename fc.file) ++ '"' ::
            ',' :: '"' :: 'c' :: '"' :: ':' :: '"' :: 'm' :: 'o' :: 'd' :: '"' ::
              '\x7d' :: ']' :: '\x7d' :: X) := by
    have hA : str "\x7b\"files\":[\x7b\"f\":" =
        ['\x7b', '"', 'f', 'i', 'l', 'e', 's', '"', ':', '[', '\x7b', '"', 'f', '"', ':'] := rfl
    have hB : str ",\"c\":\"mod\"\x7d]\x7d" =
        [',', '"', 'c', '"', ':', '"', 'm', 'o', 'd', '"', '\x7d', ']', '\x7d'] := rfl
    rw [fallbackJson, hA, hB, jsonQuote]
    simp [List.append_assoc]
  rw [hshape]
  have e1 : (m + 6 : Nat) = (m + 5) + 1 := rfl
  have e2 : (m + 5 : Nat) = (m + 4) + 1 := rfl
  have e3 : (m + 4 : Nat) = (m + 3) + 1 := rfl
  have e4 : (m + 3 : Nat) = (m + 2) + 1 := rfl
  have e5 : (m + 2 : Nat) = (m + 1) + 1 := rfl
  simp [parseF, skipWs, jsonWs, e1, e2, e3, e4, e5, hkey, hkeyf, hkeyc, hmod, hb,
    fallbackVal]
  exact ⟨rfl, rfl, rfl, rfl⟩

theorem serItem_length (mapFn : JStr → JStr) (fc : FileChange) :
    15 ≤ (serItem mapFn fc).length := by
  have h := serItem_shape mapFn fc []
  rw [List.append_nil] at h
  rw [h]
  simp
  omega

theorem joinComma_length (items : List JStr) (h : ∀ i ∈ items, 15 ≤ i.length) :
    16 * items.length ≤ (joinComma items).length + 1 := by
  induction items with
  | nil => simp [joinComma]
  | cons x rest ih =>
      cases rest with
      | nil =>
          have := h x (List.mem_cons_self x [])
          simp [joinComma]
          omega
      | cons y r =>
          have hx := h x (List.mem_cons_self x (y :: r))
          have hrest := ih (fun i hi => h i (List.mem_cons_of_mem _ hi))
          simp [joinComma, List.length_append] at hrest ⊢
          omega

theorem serialize_fuel_ok (mapFn : JStr → JStr) (fc : FileChange) (arr : List FileChange) :
    5 * arr.length + 12 ≤ (serialize (fc :: arr) mapFn).length + 1 := by
  have h11 : (str "\x7b\"files\": [").length = 11 := rfl
  have h2 : (str "]\x7d").length = 2 := rfl
  have hj := joinComma_length ((fc :: arr).map (serItem mapFn)) (by
    intro i hi
    obtain ⟨b, _, rfl⟩ := List.mem_map.1 hi
    exact serItem_length mapFn b)
  simp only [serialize, List.length_append, h11, h2, List.length_map, List.length_cons] at hj ⊢
  omega

theorem jsonParse_serialize (mapFn : JStr → JStr) (fc : FileChange) (arr : List FileChange)
    (hg : ∀ b ∈ fc :: arr, goodChars b.file = true ∧ goodChars (mapFn b.change) = true) :
    jsonParse (serialize (fc :: arr) mapFn) = some (filesVal (fc :: arr) mapFn) := by
  rw [jsonParse]
  have h := parseF_serialize mapFn fc arr hg
    (F := (serialize (fc :: arr) mapFn).length + 1) (serialize_fuel_ok mapFn fc arr) []
  rw [List.append_nil] at h
  rw [h]
  simp [skipWs]

theorem jsonParse_fallback (fc : FileChange) :
    jsonParse (fallbackJson fc) = some (fallbackVal fc) := by
  rw [jsonParse]
  have hlen : 7 ≤ (fallbackJson fc).length + 1 := by
    have hA : (str "\x7b\"files\":[\x7b\"f\":").length = 15 := rfl
    have hB : (str ",\"c\":\"mod\"\x7d]\x7d").length = 13 := rfl
    simp [fallbackJson, jsonQuote, List.length_append, hA, hB]
    omega
  have h := parseF_fallback fc (F := (fallbackJson fc).length + 1) hlen []
  rw [List.append_nil] at h
  rw [h]
  simp [skipWs]

theorem goodChars_applyMap (m : Option Nat) (s : JStr) (h : goodChars s = true) :
    goodChars (applyMap m s) = true := by
  cases m with
  | none => exact h
  | some n =>
      simp only [goodChars, List.all_eq_true] at h ⊢
      intro c hc
      exact h c (List.take_subset n s hc)

/-- **C8 (counterexample).** The claim quantifies over file and change
strings with arbitrary characters; a change token containing a raw tab is
embedded unescaped by the manual escaper (which handles only backslash,
quote, newline and carriage return), so the well-within-budget output
contains an unescaped control character inside a JSON string and is not
parseable JSON. -/
theorem c8_counterexample :
    compressToJson [⟨ str "a", [ '\t']⟩] 400 =
      str "\x7b\"files\": [\x7b\"f\":\"a\",\"c\":\"\t\"\x7d]\x7d" ∧
    jsonParse (compressToJson [⟨ str "a", [ '\t']⟩] 400) = none :=
  ⟨by decide, rfl⟩

/-- **C8 (amended).** For every non-empty FileChange list whose file names
and change tokens contain no control characters other than newline and
carriage return (the characters the manual escaper handles), and every
budget, `compressToJson` returns parseable JSON whose `files` array is
non-empty — the embedded strings having been escaped by `escapeStr` for
backslash, double-quote, newline and carriage return on the tiered paths,
and by the library serializer on the fallback path. -/
theorem c8_amended (fcs : List FileChange) (hne : fcs ≠ []) (maxLen : Nat)
    (hg : ∀ fc ∈ fcs, goodChars fc.file = true ∧ goodChars fc.change = true) :
    ∃ l, jsonParse (compressToJson fcs maxLen) =
        some (JVal.obj [( str "files", JVal.arr l)]) ∧ l ≠ [] := by
  obtain ⟨fc, rest, rfl⟩ : ∃ a b, fcs = a :: b := by
    cases fcs with
    | nil => exact absurd rfl hne
    | cons a b => exact ⟨a, b, rfl⟩
  rcases h : tryAll (fc :: rest) maxLen with _ | s
  · have hout : compressToJson (fc :: rest) maxLen = fallbackJson fc := by
      rw [compressToJson, h]
    rw [hout]
    exact ⟨_, jsonParse_fallback fc, by simp⟩
  · have hout : compressToJson (fc :: rest) maxLen = s := by
      rw [compressToJson, h]
    obtain ⟨mm, _, hsome⟩ := List.exists_of_findSome?_eq_some h
    obtain ⟨k, h1, _, h3, _⟩ := tryKeep_some hsome
    obtain ⟨k', rfl⟩ : ∃ k', k = k' + 1 := ⟨k - 1, by omega⟩
    have htake : (fc :: rest).take (k' + 1) = fc :: rest.take k' := rfl
    rw [htake] at h3
    have hgood' : ∀ b ∈ fc :: rest.take k',
        goodChars b.file = true ∧ goodChars (applyMap mm b.change) = true := by
      intro b hb
      have hbmem : b ∈ fc :: rest := by
        rw [List.mem_cons] at hb
        rcases hb with rfl | hb'
        · exact List.mem_cons_self _ _
        · exact List.mem_cons_of_mem _ (List.take_subset k' rest hb')
      have hgb := hg b hbmem
      exact ⟨hgb.1, goodChars_applyMap mm _ hgb.2⟩
    refine ⟨(fc :: rest.take k').map (itemVal (applyMap mm)), ?_, by simp⟩
    have hp := jsonParse_serialize (applyMap mm) fc (rest.take k') hgood'
    rw [hout, h3]
    simpa [filesVal] using hp

/-- Witness for C8 at a one-entry clean input and the default-like budget. -/
theorem c8_amended_witness :
    ∃ l, jsonParse (compressToJson [⟨ str "a.txt", str "1+/2-"⟩] 400) =
        some (JVal.obj [( str "files", JVal.arr l)]) ∧ l ≠ [] :=
  c8_amended [⟨ str "a.txt", str "1+/2-"⟩] (by decide) 400 (by decide)

/-- **C10.** When no transform-times-keep combination fits, the output is
the library-serialized fallback (`JSON.stringify`), which parses back for
every possible first file name — control characters included, since the
library escaper emits `\u00..` escapes — to exactly one object with field
`f` the basename of the first file (or the whole file string when the
basename is empty, as `jsBasename` encodes) and field `c` the literal
`mod`. -/
theorem c10_fallback_library_json (fcs : List FileChange) (hne : fcs ≠ []) (maxLen : Nat)
    (hnofit : fitsAny fcs maxLen = false) :
    ∃ fc rest, fcs = fc :: rest ∧
      compressToJson fcs maxLen = fallbackJson fc ∧
      jsonParse (compressToJson fcs maxLen) = some (fallbackVal fc) := by
  obtain ⟨fc, rest, rfl⟩ : ∃ a b, fcs = a :: b := by
    cases fcs with
    | nil => exact absurd rfl hne
    | cons a b => exact ⟨a, b, rfl⟩
  rw [← tryAll_isSome_iff_fitsAny] at hnofit
  rcases h : tryAll (fc :: rest) maxLen with _ | s
  · have hout : compressToJson (fc :: rest) maxLen = fallbackJson fc := by
      rw [compressToJson, h]
    exact ⟨fc, rest, rfl, hout, by rw [hout]; exact jsonParse_fallback fc⟩
  · rw [h] at hnofit
    simp at hnofit

/-- Witness for C10 at a long, tab-containing file name and a tiny budget:
nothing fits, and the fallback still parses. -/
theorem c10_fallback_library_json_witness :
    compressToJson [⟨ str "aaaaaaaaaaaaaaaaaaaa\tb", str "x"⟩] 5 =
      fallbackJson ⟨ str "aaaaaaaaaaaaaaaaaaaa\tb", str "x"⟩ ∧
    jsonParse (compressToJson [⟨ str "aaaaaaaaaaaaaaaaaaaa\tb", str "x"⟩] 5) =
      some (fallbackVal ⟨ str "aaaaaaaaaaaaaaaaaaaa\tb", str "x"⟩) := by
  obtain ⟨fc, rest, heq, h1, h2⟩ :=
    c10_fallback_library_json [⟨ str "aaaaaaaaaaaaaaaaaaaa\tb", str "x"⟩] (by decide) 5
      (by decide)
  have hinj : (⟨ str "aaaaaaaaaaaaaaaaaaaa\tb", str "x"⟩ : FileChange) = fc ∧
      ([] : List FileChange) = rest := by
    simpa using heq
  obtain ⟨rfl, rfl⟩ := hinj
  exact ⟨h1, h2⟩

/-! ## File-system model and the Ignore-Safety Resolver (gitUtils.ts 88-236)

Directory trees are mutual inductives (`FsNode`/`FsEntries`) so that the
walker is structurally recursive and evaluates inside `decide`.  Reads are
total: reading a missing file or a directory yields the same result as the
source's caught exception (empty string / absent).  The one divergence is
the write: `writeFileSync` on a path occupied by a *directory* throws and
crashes the run, while the model's `setGitignore` replaces the entry; the
theorems below therefore hypothesize `gitignoreFileOk` (the root
`.gitignore` entry, if present, is a file), exactly the states on which
the source completes.  The returned Boolean models the write-plus-log
branch (lines 231-235): whether the resolver reported a modification. -/

mutual
/-- A file-system node: a file with contents, or a directory. -/
inductive FsNode where
  | file (content : JStr)
  | dir (entries : FsEntries)
deriving Repr

/-- Ordered directory entries (what `readdirSync` returns). -/
inductive FsEntries where
  | nil
  | cons (name : JStr) (node : FsNode) (rest : FsEntries)
deriving Repr
end

/-- `e.isDirectory()`. -/
def isDir : FsNode → Bool
  | .dir _ => true
  | .file _ => false

/-- `path.relative(repoRoot, path.join(dir, name))` in POSIX form: join a
root-relative directory path and an entry name. -/
def joinRel (d n : JStr) : JStr := if d.isEmpty then n else d ++ '/' :: n

/-- First entry of the given name, like a path lookup of one segment. -/
def findEntry : FsEntries → JStr → Option FsNode
  | .nil, _ => none
  | .cons n node rest, name => if n = name then some node else findEntry rest name

/-- Look a path of segments up in a tree. -/
def lookupSegs : FsEntries → List JStr → Option FsNode
  | _, [] => none
  | es, [s] => findEntry es s
  | es, s :: s2 :: rest =>
      match findEntry es s with
      | some (.dir sub) => lookupSegs sub (s2 :: rest)
      | _ => none

/-- `readFileSync` of a path, `none` when missing or a directory (the
source catches the throw). -/
def readFileAt (root : FsEntries) (segs : List JStr) : Option JStr :=
  match lookupSegs root segs with
  | some (.file c) => some c
  | _ => none

/-- The `existing` string of the resolver: the root `.gitignore` contents,
empty when absent or unreadable. -/
def getGitignore (root : FsEntries) : JStr :=
  match findEntry root (str ".gitignore") with
  | some (.file c) => c
  | _ => []

/-- Replace the first `.gitignore`-named entry with a file of the given
contents, appending a new entry when none exists (`writeFileSync`). -/
def setEntry : FsEntries → JStr → FsNode → FsEntries
  | .nil, name, node => .cons name node .nil
  | .cons n nd rest, name, node =>
      if n = name then .cons n node rest else .cons n nd (setEntry rest name node)

/-- Persist the rewritten ignore file. -/
def setGitignore (root : FsEntries) (content : JStr) : FsEntries :=
  setEntry root (str ".gitignore") (.file content)

/-- JavaScript `String.prototype.trim` whitespace (WhiteSpace and
LineTerminator code points). -/
def jsWhite (c : Char) : Bool :=
  c.toNat == 9 || c.toNat == 10 || c.toNat == 11 || c.toNat == 12 || c.toNat == 13 ||
  c.toNat == 32 || c.toNat == 0xa0 || c.toNat == 0x1680 ||
  (0x2000 ≤ c.toNat && c.toNat ≤ 0x200a) ||
  c.toNat == 0x2028 || c.toNat == 0x2029 || c.toNat == 0x202f ||
  c.toNat == 0x205f || c.toNat == 0x3000 || c.toNat == 0xfeff

/-- `l.trim()`. -/
def jsTrim (l : JStr) : JStr :=
  ((l.dropWhile jsWhite).reverse.dropWhile jsWhite).reverse

/-- `existing.split(/\r?\n/)`: split at each newline or CRLF pair; a lone
carriage return does not split. -/
def splitLinesCRLF : JStr → List JStr
  | [] => [[]]
  | '\r' :: '\n' :: rest => [] :: splitLinesCRLF rest
  | '\n' :: rest => [] :: splitLinesCRLF rest
  | c :: rest =>
      match splitLinesCRLF rest with
      | [] => [[c]]
      | a :: as => (c :: a) :: as

/-- Keep a parsed line: non-empty and not a comment. -/
def keepLine (l : JStr) : Bool := !l.isEmpty && !(l.head? == some '#')

/-- Line 98: split, trim, drop empties and comments. -/
def parseLines (existing : JStr) : List JStr :=
  ((splitLinesCRLF existing).map jsTrim).filter keepLine

/-- The RequiredProtection set (line 130). -/
def configPatterns : List JStr :=
  [ str "*.env*", str ".env*", str "docx/", str ".docx/"]

/-- Lines 134-153: queue a labeled comment and the pattern itself for every
required pattern not covered by the existing lines. -/
def requiredQueue (lines : List JStr) : List JStr :=
  (configPatterns.map (fun req =>
    if lines.any (fun l => coverMatches l req) then []
    else [ str "# Added by Autocommiter: ensure " ++ req, req])).flatten

/-- The recursive `walk` (lines 157-190), threading the shared
`nestedGitParents` accumulator: ignored directories are skipped (the
ignore test precedes the `.git` test), a non-ignored `.git` directory
records its parent (when not the root, deduplicated) and is not descended
into, and other directories are descended into. -/
def walkEntries (ign : JStr → Bool) : JStr → FsEntries → List JStr → List JStr
  | _, .nil, acc => acc
  | d, .cons n node rest, acc =>
      if ign (joinRel d n) && isDir node then walkEntries ign d rest acc
      else
        match node with
        | .file _ => walkEntries ign d rest acc
        | .dir sub =>
            if n = str ".git" then
              walkEntries ign d rest
                (if !d.isEmpty && !(acc.contains d) then acc ++ [d] else acc)
            else
              walkEntries ign d rest (walkEntries ign (joinRel d n) sub acc)

/-- Lines 198-208: extract `path = value` declarations (case-insensitive
key, line-oriented) from the submodule registry, POSIX-normalized. -/
def matchPathLine (l : JStr) : Option JStr :=
  match l.dropWhile jsWhite with
  | p :: a :: t :: h :: rest =>
      if p.toLower == 'p' && a.toLower == 'a' && t.toLower == 't' && h.toLower == 'h' then
        match rest.dropWhile jsWhite with
        | '=' :: r2 =>
            let r3 := r2.dropWhile jsWhite
            if r3.isEmpty then none else some (jsTrim r3)
        | _ => none
      else none
  | _ => none

/-- Split at every line terminator (the `m` flag's line boundaries). -/
def splitTerms : JStr → List JStr
  | [] => [[]]
  | c :: rest =>
      if c == '\n' || c == '\r' || c == Char.ofNat 0x2028 || c == Char.ofNat 0x2029 then
        [] :: splitTerms rest
      else
        match splitTerms rest with
        | [] => [[c]]
        | a :: as => (c :: a) :: as

/-- The SubmodulePath set of the root registry file. -/
def gitmodulePaths (root : FsEntries) : List JStr :=
  match readFileAt root [ str ".gitmodules"] with
  | none => []
  | some gm => (splitTerms gm).filterMap matchPathLine

/-- `sub.includes(p)`: substring containment. -/
def isSubstring (needle : JStr) : JStr → Bool
  | [] => needle.isEmpty
  | c :: rest => needle.isPrefixOf (c :: rest) || isSubstring needle rest

/-- Lines 210-229: queue `<path>/` (with a labeled comment) for every
nested-repo parent not declared as a submodule, not already ignored, and
not mentioned textually by its own registry file. -/
def nestedQueue (root : FsEntries) (lines : List JStr) (gm : List JStr)
    (parents : List JStr) : List JStr :=
  (parents.map (fun p =>
    if gm.contains p then []
    else if isIgnored lines p then []
    else
      match readFileAt root (splitChar '/' p ++ [ str ".gitmodules"]) with
      | some sub =>
          if isSubstring p sub then []
          else [ str "# Added by Autocommiter: ignore nested repo " ++ p, p ++ [ '/']]
      | none => [ str "# Added by Autocommiter: ignore nested repo " ++ p, p ++ [ '/']])).flatten

/-- `toAppend.join('\n')`. -/
def joinNl : List JStr → JStr
  | [] => []
  | [x] => x
  | x :: y :: rest => x ++ '\n' :: joinNl (y :: rest)

/-- The full queued line list of one resolver pass. -/
def toAppendOf (root : FsEntries) : List JStr :=
  let lines := parseLines (getGitignore root)
  requiredQueue lines ++
    nestedQueue root lines (gitmodulePaths root)
      (walkEntries (isIgnored lines) [] root [])

/-- `ensureGitignoreSafety` (lines 88-236): one reconciliation pass,
returning the resulting tree and whether the ignore file was rewritten. -/
def ensureGitignoreSafety (root : FsEntries) : FsEntries × Bool :=
  let existing := getGitignore root
  let toAppend := toAppendOf root
  if toAppend.isEmpty then (root, false)
  else
    (setGitignore root
      ((if (jsTrim existing).isEmpty then [] else existing ++ [ '\n']) ++
        joinNl toAppend ++ [ '\n']), true)

/-! ## Line-parse lemmas: appending after a newline -/

/-- Remove one trailing carriage return (the effect of the inserted `\n`
merging with a trailing `\r` of the old last line under the CRLF split). -/
def stripCR (l : JStr) : JStr := if l.getLast? = some '\r' then l.dropLast else l

/-- Apply a function to the last element only. -/
def mapLast (f : JStr → JStr) : List JStr → List JStr
  | [] => []
  | [x] => [f x]
  | x :: y :: r => x :: mapLast f (y :: r)

theorem splitLinesCRLF_ne (s : JStr) : splitLinesCRLF s ≠ [] := by
  induction s using splitLinesCRLF.induct with
  | case1 => simp [splitLinesCRLF]
  | case2 rest ih => simp [splitLinesCRLF]
  | case3 rest ih => simp [splitLinesCRLF]
  | case4 c rest h1 h2 heq ih => exact absurd heq ih
  | case5 c rest h1 h2 a as heq ih =>
      rw [splitLinesCRLF, heq]
      · simp
      · exact h1
      · exact h2

theorem splitLinesCRLF_eq_nilnil (s : JStr) (h : splitLinesCRLF s = [[]]) : s = [] := by
  induction s using splitLinesCRLF.induct with
  | case1 => rfl
  | case2 rest ih =>
      rw [splitLinesCRLF] at h
      simp at h
      exact absurd h (splitLinesCRLF_ne rest)
  | case3 rest ih =>
      rw [splitLinesCRLF] at h
      simp at h
      exact absurd h (splitLinesCRLF_ne rest)
  | case4 c rest h1 h2 heq ih => exact absurd heq (splitLinesCRLF_ne rest)
  | case5 c rest h1 h2 a as heq ih =>
      rw [splitLinesCRLF, heq] at h
      · simp at h
      · exact h1
      · exact h2

theorem mapLast_cons (f : JStr → JStr) (x : JStr) (L : List JStr) (h : L ≠ []) :
    mapLast f (x :: L) = x :: mapLast f L := by
  cases L with
  | nil => exact absurd rfl h
  | cons y r => rfl

theorem stripCR_cons (c : Char) (y : JStr) (h : y ≠ []) :
    stripCR (c :: y) = c :: stripCR y := by
  rw [stripCR, stripCR]
  cases y with
  | nil => exact absurd rfl h
  | cons d r =>
      rw [List.getLast?_cons_cons]
      split
      · simp [List.dropLast]
      · rfl

theorem split_append (b : JStr) :
    ∀ a, splitLinesCRLF (a ++ '\n' :: b) =
      mapLast stripCR (splitLinesCRLF a) ++ splitLinesCRLF b := by
  intro a
  induction a using splitLinesCRLF.induct with
  | case1 =>
      simp [splitLinesCRLF, mapLast, stripCR]
  | case2 rest ih =>
      have h1 : splitLinesCRLF ('\r' :: '\n' :: (rest ++ '\n' :: b)) =
          [] :: splitLinesCRLF (rest ++ '\n' :: b) := rfl
      have h2 : splitLinesCRLF ('\r' :: '\n' :: rest) = [] :: splitLinesCRLF rest := rfl
      simp only [List.cons_append, h1, h2, ih]
      rw [mapLast_cons _ _ _ (splitLinesCRLF_ne rest)]
      simp
  | case3 rest ih =>
      have h1 : splitLinesCRLF ('\n' :: (rest ++ '\n' :: b)) =
          [] :: splitLinesCRLF (rest ++ '\n' :: b) := rfl
      have h2 : splitLinesCRLF ('\n' :: rest) = [] :: splitLinesCRLF rest := rfl
      simp only [List.cons_append, h1, h2, ih]
      rw [mapLast_cons _ _ _ (splitLinesCRLF_ne rest)]
      simp
  | case4 c rest h1 h2 heq ih => exact absurd heq (splitLinesCRLF_ne rest)
  | case5 c rest h1 h2 a as heq ih =>
      cases rest with
      | nil =>
          simp only [splitLinesCRLF] at heq
          obtain ⟨rfl, rfl⟩ : a = [] ∧ as = ([] : List JStr) := by
            constructor <;> simp_all
          by_cases hc : c = '\r'
          · subst hc
            have hL : splitLinesCRLF (['\r'] ++ '\n' :: b) = [] :: splitLinesCRLF b := rfl
            have hR : splitLinesCRLF ['\r'] = [['\r']] := rfl
            rw [hL, hR]
            simp [mapLast, stripCR]
          · have hL : splitLinesCRLF ([c] ++ '\n' :: b) = [c] :: splitLinesCRLF b := by
              rw [List.cons_append, List.nil_append, splitLinesCRLF]
              · rfl
              · intro r hcr hr
                exact absurd hcr hc
              · exact h2
            have hR : splitLinesCRLF [c] = [[c]] := by
              rw [splitLinesCRLF]
              · rfl
              · intro r hcr hr
                exact absurd hcr hc
              · exact h2
            rw [hL, hR]
            simp [mapLast, stripCR, hc]
      | cons d rest' =>
          have hdisp : splitLinesCRLF (c :: (d :: rest') ++ '\n' :: b) =
              match splitLinesCRLF ((d :: rest') ++ '\n' :: b) with
              | [] => [[c]]
              | a' :: as' => (c :: a') :: as' := by
            rw [List.cons_append, splitLinesCRLF]
            · intro r hcr hr
              rw [List.cons_append] at hr
              injection hr with hd ht
              exact h1 rest' hcr (by rw [hd])
            · exact h2
          have hA : splitLinesCRLF (c :: d :: rest') =
              match splitLinesCRLF (d :: rest') with
              | [] => [[c]]
              | a' :: as' => (c :: a') :: as' := by
            rw [splitLinesCRLF]
            · exact h1
            · exact h2
          rw [hdisp, ih, heq, hA, heq]
          cases as with
          | nil =>
              have ha : a ≠ [] := by
                intro hnil
                subst hnil
                exact List.cons_ne_nil d rest' (splitLinesCRLF_eq_nilnil _ heq)
              simp only [mapLast, List.cons_append, List.nil_append]
              rw [stripCR_cons c a ha]
          | cons z zs =>
              rw [mapLast_cons _ _ _ (List.cons_ne_nil z zs),
                mapLast_cons _ _ _ (List.cons_ne_nil z zs)]
              rfl

theorem jsTrim_append_white (l : JStr) (c : Char) (hc : jsWhite c = true) :
    jsTrim (l ++ [c]) = jsTrim l := by
  rw [jsTrim, jsTrim, List.dropWhile_append]
  split
  · next h =>
      have : List.dropWhile jsWhite [c] = [] := by simp [List.dropWhile, hc]
      rw [this]
      simp only [List.isEmpty_iff] at h
      rw [h]
  · rw [List.reverse_append]
    simp only [List.reverse_cons, List.reverse_nil, List.nil_append, List.cons_append,
      List.nil_append]
    rw [List.dropWhile_cons]
    simp [hc]

theorem jsTrim_stripCR (l : JStr) : jsTrim (stripCR l) = jsTrim l := by
  rw [stripCR]
  split
  · next h =>
      have hl : l = l.dropLast ++ ['\r'] := by
        rcases l.eq_nil_or_concat with rfl | ⟨ys, y, rfl⟩
        · simp at h
        · rw [List.concat_eq_append] at h ⊢
          rw [List.getLast?_concat] at h
          injection h with h
          subst h
          simp
      conv_rhs => rw [hl]
      rw [jsTrim_append_white]
      rfl
  · rfl

theorem map_jsTrim_mapLast (L : List JStr) :
    (mapLast stripCR L).map jsTrim = L.map jsTrim := by
  induction L with
  | nil => rfl
  | cons x rest ih =>
      cases rest with
      | nil => simp [mapLast, jsTrim_stripCR]
      | cons y r =>
          rw [mapLast_cons _ _ _ (List.cons_ne_nil y r)]
          simp only [List.map_cons] at ih ⊢
          rw [ih]

theorem parseLines_append (a b : JStr) :
    parseLines (a ++ '\n' :: b) = parseLines a ++ parseLines b := by
  rw [parseLines, parseLines, parseLines, split_append b a, List.map_append,
    List.filter_append, map_jsTrim_mapLast]

theorem split_noNl (l : JStr) (h : l.contains '\n' = false) : splitLinesCRLF l = [l] := by
  induction l using splitLinesCRLF.induct with
  | case1 => rfl
  | case2 rest ih => simp [List.contains_cons] at h
  | case3 rest ih => simp [List.contains_cons] at h
  | case4 c rest h1 h2 heq ih => exact absurd heq (splitLinesCRLF_ne rest)
  | case5 c rest h1 h2 a as heq ih =>
      have hrest : rest.contains '\n' = false := by
        simp [List.contains_cons] at h
        simp [h.2]
      have := ih hrest
      rw [heq] at this
      obtain ⟨rfl, rfl⟩ : a = rest ∧ as = ([] : List JStr) := by
        constructor <;> simp_all
      rw [splitLinesCRLF, heq]
      · exact h1
      · exact h2

theorem parseLines_block (L : List JStr) (h : ∀ l ∈ L, l.contains '\n' = false) :
    parseLines (joinNl L ++ [ '\n']) = (L.map jsTrim).filter keepLine := by
  induction L with
  | nil => rfl
  | cons x rest ih =>
      cases rest with
      | nil =>
          have hx := h x (List.mem_cons_self x [])
          have hsingle : joinNl [x] ++ [ '\n'] = x ++ '\n' :: [] := rfl
          rw [hsingle, parseLines_append, parseLines, split_noNl x hx]
          have hempty : parseLines [] = [] := rfl
          rw [hempty, List.append_nil]
      | cons y r =>
          have hx := h x (List.mem_cons_self x (y :: r))
          have hjoin : joinNl (x :: y :: r) ++ [ '\n'] =
              x ++ '\n' :: (joinNl (y :: r) ++ [ '\n']) := by
            simp [joinNl, List.append_assoc]
          rw [hjoin, parseLines_append,
            ih (fun l hl => h l (List.mem_cons_of_mem _ hl)),
            parseLines, split_noNl x hx]
          cases hk : keepLine (jsTrim x) <;> simp [List.filter_cons, hk]

/-! ## Walker lemmas -/

/-- The parents the walker records, without the threaded accumulator. -/
def foundList (ign : JStr → Bool) : JStr → FsEntries → List JStr
  | _, .nil => []
  | d, .cons n node rest =>
      if ign (joinRel d n) && isDir node then foundList ign d rest
      else
        match node with
        | .file _ => foundList ign d rest
        | .dir sub =>
            if n = str ".git" then
              (if d.isEmpty then [] else [d]) ++ foundList ign d rest
            else
              foundList ign (joinRel d n) sub ++ foundList ign d rest

theorem walkEntries_nil (ign : JStr → Bool) (d : JStr) (acc : List JStr) :
    walkEntries ign d .nil acc = acc := by
  rw [walkEntries.eq_def]

theorem walkEntries_cons (ign : JStr → Bool) (d n : JStr) (node : FsNode) (rest : FsEntries)
    (acc : List JStr) :
    walkEntries ign d (.cons n node rest) acc =
      if ign (joinRel d n) && isDir node then walkEntries ign d rest acc
      else
        match node with
        | .file _ => walkEntries ign d rest acc
        | .dir sub =>
            if n = str ".git" then
              walkEntries ign d rest
                (if !d.isEmpty && !(acc.contains d) then acc ++ [d] else acc)
            else
              walkEntries ign d rest (walkEntries ign (joinRel d n) sub acc) := by
  rw [walkEntries.eq_def]

theorem foundList_nil (ign : JStr → Bool) (d : JStr) : foundList ign d .nil = [] := by
  rw [foundList.eq_def]

theorem foundList_cons (ign : JStr → Bool) (d n : JStr) (node : FsNode) (rest : FsEntries) :
    foundList ign d (.cons n node rest) =
      if ign (joinRel d n) && isDir node then foundList ign d rest
      else
        match node with
        | .file _ => foundList ign d rest
        | .dir sub =>
            if n = str ".git" then
              (if d.isEmpty then [] else [d]) ++ foundList ign d rest
            else
              foundList ign (joinRel d n) sub ++ foundList ign d rest := by
  rw [foundList.eq_def]

theorem mem_walkEntries (ign : JStr → Bool) :
    ∀ (d : JStr) (es : FsEntries) (acc : List JStr) (x : JStr),
      x ∈ walkEntries ign d es acc ↔ x ∈ acc ∨ x ∈ foundList ign d es := by
  intro d es acc
  induction d, es, acc using walkEntries.induct ign with
  | case1 d acc =>
      intro x
      rw [walkEntries_nil, foundList_nil]
      simp
  | case2 d n node rest acc hign ih =>
      intro x
      rw [walkEntries_cons, if_pos hign, foundList_cons, if_pos hign]
      exact ih x
  | case3 d n rest acc a hign ih =>
      intro x
      rw [walkEntries_cons, if_neg hign, foundList_cons, if_neg hign]
      exact ih x
  | case4 d rest acc a hign ih =>
      intro x
      rw [walkEntries_cons, if_neg hign, foundList_cons, if_neg hign]
      simp only [if_pos rfl, if_true]
      rw [ih x]
      by_cases hd : d.isEmpty
      · simp [hd]
      · by_cases hmem : acc.contains d
        · have hdin : d ∈ acc := by simpa using hmem
          rw [if_neg (by simp [hd]; exact hdin)]
          rw [if_neg hd]
          constructor
          · rintro (h | h)
            · exact Or.inl h
            · exact Or.inr (List.mem_append_right _ h)
          · rintro (h | h)
            · exact Or.inl h
            · rcases List.mem_append.1 h with h1 | h1
              · simp at h1
                subst h1
                exact Or.inl hdin
              · exact Or.inr h1
        · have hdnin : d ∉ acc := fun hin => hmem (by simpa using hin)
          rw [if_pos (by simp [hd, hdnin])]
          rw [if_neg hd]
          constructor
          · rintro (h | h)
            · rcases List.mem_append.1 h with h1 | h1
              · exact Or.inl h1
              · simp at h1
                subst h1
                exact Or.inr (List.mem_append_left _ (by simp))
            · exact Or.inr (List.mem_append_right _ h)
          · rintro (h | h)
            · exact Or.inl (List.mem_append_left _ h)
            · rcases List.mem_append.1 h with h1 | h1
              · simp at h1
                subst h1
                exact Or.inl (List.mem_append_right _ (by simp))
              · exact Or.inr h1
  | case5 d n rest acc a hname hign ihsub ihrest =>
      intro x
      rw [walkEntries_cons, if_neg hign, foundList_cons, if_neg hign]
      simp only [if_neg hname]
      rw [ihrest x, ihsub x]
      rw [List.mem_append]
      tauto

theorem mem_foundList_cons (ign : JStr → Bool) (d m : JStr) (nd : FsNode) (rest : FsEntries)
    (x : JStr) (hx : x ∈ foundList ign d rest) : x ∈ foundList ign d (.cons m nd rest) := by
  rw [foundList_cons]
  by_cases hc : (ign (joinRel d m) && isDir nd) = true
  · rw [if_pos hc]; exact hx
  · rw [if_neg hc]
    cases nd with
    | file c => exact hx
    | dir sub =>
        show x ∈ (if m = str ".git" then (if d.isEmpty then [] else [d]) ++ foundList ign d rest
          else foundList ign (joinRel d m) sub ++ foundList ign d rest)
        by_cases hg : m = str ".git"
        · rw [if_pos hg]
          exact List.mem_append_right _ hx
        · rw [if_neg hg]
          exact List.mem_append_right _ hx

theorem foundList_mono (ign₁ ign₂ : JStr → Bool) (h : ∀ y, ign₁ y = true → ign₂ y = true) :
    ∀ (d : JStr) (es : FsEntries) (x : JStr),
      x ∈ foundList ign₂ d es → x ∈ foundList ign₁ d es := by
  intro d es
  induction d, es using foundList.induct ign₂ with
  | case1 d =>
      intro x hx
      rw [foundList_nil] at hx
      cases hx
  | case2 d n node rest hign ih =>
      intro x hx
      rw [foundList_cons, if_pos hign] at hx
      exact mem_foundList_cons ign₁ d n node rest x (ih x hx)
  | case3 d n rest a hign ih =>
      intro x hx
      rw [foundList_cons, if_neg hign] at hx
      have hx' : x ∈ foundList ign₂ d rest := hx
      exact mem_foundList_cons ign₁ d n (.file a) rest x (ih x hx')
  | case4 d rest a hign ih =>
      intro x hx
      rw [foundList_cons, if_neg hign] at hx
      have hign2 : ign₂ (joinRel d (str ".git")) = false := by
        simp [isDir] at hign
        exact hign
      have hign1 : ¬(ign₁ (joinRel d (str ".git")) && isDir (FsNode.dir a)) = true := by
        simp [isDir]
        cases hb : ign₁ (joinRel d (str ".git")) with
        | false => rfl
        | true =>
            have hff : (true : Bool) = false := (h _ hb).symm.trans hign2
            cases hff
      rw [foundList_cons, if_neg hign1]
      have hx' : x ∈ (if d.isEmpty then [] else [d]) ++ foundList ign₂ d rest := hx
      rcases List.mem_append.1 hx' with h1 | h1
      · exact List.mem_append_left _ h1
      · exact List.mem_append_right _ (ih x h1)
  | case5 d n rest a hname hign ihsub ihrest =>
      intro x hx
      rw [foundList_cons, if_neg hign] at hx
      have hign2 : ign₂ (joinRel d n) = false := by
        simp [isDir] at hign
        exact hign
      have hign1 : ¬(ign₁ (joinRel d n) && isDir (FsNode.dir a)) = true := by
        simp [isDir]
        cases hb : ign₁ (joinRel d n) with
        | false => rfl
        | true =>
            have hff : (true : Bool) = false := (h _ hb).symm.trans hign2
            cases hff
      rw [foundList_cons, if_neg hign1]
      simp only [if_neg hname]
      have hx' : x ∈ foundList ign₂ (joinRel d n) a ++ foundList ign₂ d rest := by
        simpa [if_neg hname] using hx
      rcases List.mem_append.1 hx' with h1 | h1
      · exact List.mem_append_left _ (ihsub x h1)
      · exact List.mem_append_right _ (ihrest x h1)

/-- An entry of the given name and node occurs in the listing. -/
def entMem (n : JStr) (node : FsNode) : FsEntries → Prop
  | .nil => False
  | .cons m nd rest => (m = n ∧ nd = node) ∨ entMem n node rest

/-- The walker's detection specification: a nested-repo parent is reached
through a chain of non-ignored, non-`.git` directories, ending at a
non-ignored directory entry literally named `.git` strictly below the
root.  Ignore-matching suppresses both descent and detection. -/
inductive ReachesGit (ign : JStr → Bool) : JStr → FsEntries → JStr → Prop where
  | here {d : JStr} {es sub : FsEntries}
      (hmem : entMem (str ".git") (FsNode.dir sub) es)
      (hign : ign (joinRel d (str ".git")) = false) (hroot : ¬d.isEmpty = true) :
      ReachesGit ign d es d
  | deeper {d n x : JStr} {es sub : FsEntries}
      (hmem : entMem n (FsNode.dir sub) es) (hname : n ≠ str ".git")
      (hign : ign (joinRel d n) = false) (hx : ReachesGit ign (joinRel d n) sub x) :
      ReachesGit ign d es x

theorem reachesGit_cons {ign : JStr → Bool} {d m x : JStr} {nd : FsNode} {rest : FsEntries}
    (h : ReachesGit ign d rest x) : ReachesGit ign d (.cons m nd rest) x := by
  cases h with
  | here hmem hign hroot => exact ReachesGit.here (Or.inr hmem) hign hroot
  | deeper hmem hname hign hx => exact ReachesGit.deeper (Or.inr hmem) hname hign hx

theorem foundList_reaches (ign : JStr → Bool) :
    ∀ (d : JStr) (es : FsEntries) (x : JStr),
      x ∈ foundList ign d es → ReachesGit ign d es x := by
  intro d es
  induction d, es using foundList.induct ign with
  | case1 d =>
      intro x hx
      rw [foundList_nil] at hx
      cases hx
  | case2 d n node rest hign ih =>
      intro x hx
      rw [foundList_cons, if_pos hign] at hx
      exact reachesGit_cons (ih x hx)
  | case3 d n rest a hign ih =>
      intro x hx
      rw [foundList_cons, if_neg hign] at hx
      exact reachesGit_cons (ih x hx)
  | case4 d rest a hign ih =>
      intro x hx
      rw [foundList_cons, if_neg hign] at hx
      have hign0 : ign (joinRel d (str ".git")) = false := by
        simp [isDir] at hign
        exact hign
      have hx' : x ∈ (if d.isEmpty then [] else [d]) ++ foundList ign d rest := hx
      rcases List.mem_append.1 hx' with h1 | h1
      · by_cases hd : d.isEmpty
        · rw [if_pos hd] at h1
          cases h1
        · rw [if_neg hd] at h1
          simp at h1
          subst h1
          exact ReachesGit.here (Or.inl ⟨rfl, rfl⟩) hign0 hd
      · exact reachesGit_cons (ih x h1)
  | case5 d n rest a hname hign ihsub ihrest =>
      intro x hx
      rw [foundList_cons, if_neg hign] at hx
      have hign0 : ign (joinRel d n) = false := by
        simp [isDir] at hign
        exact hign
      have hx' : x ∈ foundList ign (joinRel d n) a ++ foundList ign d rest := by
        simpa [if_neg hname] using hx
      rcases List.mem_append.1 hx' with h1 | h1
      · exact ReachesGit.deeper (Or.inl ⟨rfl, rfl⟩) hname hign0 (ihsub x h1)
      · exact reachesGit_cons (ihrest x h1)

theorem foundList_of_entMem (ign : JStr → Bool) (d x n : JStr) (sub : FsEntries)
    (hign : ign (joinRel d n) = false)
    (hx : x ∈ (if n = str ".git" then (if d.isEmpty then [] else [d])
               else foundList ign (joinRel d n) sub)) :
    ∀ es : FsEntries, entMem n (FsNode.dir sub) es → x ∈ foundList ign d es
  | .nil, h => h.elim
  | .cons m nd rest, h => by
      rcases h with ⟨he, hnd⟩ | h'
      · subst he
        subst hnd
        rw [foundList_cons]
        rw [if_neg (by simp [isDir, hign])]
        show x ∈ (if m = str ".git" then
          (if d.isEmpty then [] else [d]) ++ foundList ign d rest
          else foundList ign (joinRel d m) sub ++ foundList ign d rest)
        by_cases hg : m = str ".git"
        · rw [if_pos hg]
          rw [if_pos hg] at hx
          exact List.mem_append_left _ hx
        · rw [if_neg hg]
          rw [if_neg hg] at hx
          exact List.mem_append_left _ hx
      · exact mem_foundList_cons ign d m nd rest x
          (foundList_of_entMem ign d x n sub hign hx rest h')

theorem reaches_foundList (ign : JStr → Bool) :
    ∀ {d : JStr} {es : FsEntries} {x : JStr},
      ReachesGit ign d es x → x ∈ foundList ign d es := by
  intro d es x h
  induction h with
  | here hmem hign hroot =>
      rename_i d' es' sub
      refine foundList_of_entMem ign d' d' (str ".git") sub hign ?_ es' hmem
      rw [if_pos rfl, if_neg hroot]
      simp
  | deeper hmem hname hign hx ihx =>
      rename_i d' n' x' es' sub
      refine foundList_of_entMem ign d' x' n' sub hign ?_ es' hmem
      rw [if_neg hname]
      exact ihx

theorem walkEntries_nodup (ign : JStr → Bool) :
    ∀ (d : JStr) (es : FsEntries) (acc : List JStr),
      acc.Nodup → (walkEntries ign d es acc).Nodup := by
  intro d es acc
  induction d, es, acc using walkEntries.induct ign with
  | case1 d acc =>
      intro h
      rw [walkEntries_nil]
      exact h
  | case2 d n node rest acc hign ih =>
      intro h
      rw [walkEntries_cons, if_pos hign]
      exact ih h
  | case3 d n rest acc a hign ih =>
      intro h
      rw [walkEntries_cons, if_neg hign]
      exact ih h
  | case4 d rest acc a hign ih =>
      intro h
      rw [walkEntries_cons, if_neg hign]
      show (walkEntries ign d rest
        (if !d.isEmpty && !(acc.contains d) then acc ++ [d] else acc)).Nodup
      apply ih
      by_cases hc : (!d.isEmpty && !(acc.contains d)) = true
      · rw [if_pos hc]
        have hnin : d ∉ acc := by
          intro hmem
          have hcon : acc.contains d = true := by
            exact List.elem_iff.mpr hmem
          rw [hcon] at hc
          simp at hc
        simp [List.nodup_append, h, hnin]
      · rw [if_neg hc]
        exact h
  | case5 d n rest acc a hname hign ihsub ihrest =>
      intro h
      rw [walkEntries_cons, if_neg hign]
      show (if n = str ".git" then
          walkEntries ign d rest
            (if !d.isEmpty && !(acc.contains d) then acc ++ [d] else acc)
        else walkEntries ign d rest (walkEntries ign (joinRel d n) a acc)).Nodup
      rw [if_neg hname]
      exact ihrest (ihsub h)

/-- **C5 (counterexample).** The claim says a directory entry literally
named `.git` is detected "regardless of whether that entry is matched as
ignored by the pattern set".  On the source the ignore test precedes the
`.git` test and `continue`s for any ignored directory: with the single
existing line `sub/.git`, the nested `.git` under `sub` is matched as
ignored and the walker records nothing, although with no ignore matches
the same tree yields `["sub"]`. -/
theorem c5_counterexample :
    isIgnored (parseLines (str "sub/.git")) (str "sub/.git") = true ∧
    walkEntries (isIgnored (parseLines (str "sub/.git"))) []
      (FsEntries.cons (str "sub")
        (FsNode.dir (FsEntries.cons (str ".git") (FsNode.dir FsEntries.nil) FsEntries.nil))
        FsEntries.nil) [] = [] ∧
    walkEntries (fun _ => false) []
      (FsEntries.cons (str "sub")
        (FsNode.dir (FsEntries.cons (str ".git") (FsNode.dir FsEntries.nil) FsEntries.nil))
        FsEntries.nil) [] = [ str "sub"] := by
  refine ⟨by decide, by decide, by decide⟩

/-- **C5 (amended).** For every ignore predicate and directory tree, the
walker's result is duplicate-free, and it contains exactly the parents `x`
of a reachable non-ignored `.git` directory entry: reachable through a
chain of non-ignored, non-`.git` directory entries, with the `.git` entry
itself not matched as ignored (ignore matching suppresses detection of
`.git` entries just as it suppresses descent), and `x` strictly below the
root. -/
theorem c5_amended (ign : JStr → Bool) (es : FsEntries) :
    (walkEntries ign [] es []).Nodup ∧
    ∀ x, x ∈ walkEntries ign [] es [] ↔ ReachesGit ign [] es x := by
  constructor
  · exact walkEntries_nodup ign [] es [] List.nodup_nil
  · intro x
    constructor
    · intro h
      rcases (mem_walkEntries ign [] es [] x).1 h with h0 | h1
      · cases h0
      · exact foundList_reaches ign [] es x h1
    · intro h
      exact (mem_walkEntries ign [] es [] x).2 (Or.inr (reaches_foundList ign h))

/-! ## Rewriting the ignore file: what the second pass sees -/

/-- All characters of a fully-trimmed-away string are whitespace. -/
theorem all_white_of_trim_nil (l : JStr) (h : jsTrim l = []) :
    ∀ c ∈ l, jsWhite c = true := by
  rw [jsTrim] at h
  have h2 : (l.dropWhile jsWhite).reverse.dropWhile jsWhite = [] := by
    have := congrArg List.reverse h
    rwa [List.reverse_reverse, List.reverse_nil] at this
  have h3 : ∀ c ∈ (l.dropWhile jsWhite).reverse, jsWhite c = true :=
    List.dropWhile_eq_nil_iff.mp h2
  have h4 : ∀ c ∈ l.dropWhile jsWhite, jsWhite c = true := by
    intro c hc
    exact h3 c (List.mem_reverse.mpr hc)
  intro c hc
  rw [← List.takeWhile_append_dropWhile jsWhite l] at hc
  rcases List.mem_append.1 hc with h5 | h5
  · exact List.mem_takeWhile_imp h5
  · exact h4 c h5

/-- Trimming an all-whitespace string gives the empty string. -/
theorem trim_nil_of_all_white (l : JStr) (h : ∀ c ∈ l, jsWhite c = true) :
    jsTrim l = [] := by
  rw [jsTrim]
  have h1 : l.dropWhile jsWhite = [] := List.dropWhile_eq_nil_iff.mpr h
  rw [h1]
  rfl

/-- Every character of every split line occurs in the split string. -/
theorem mem_splitLinesCRLF (s : JStr) :
    ∀ line ∈ splitLinesCRLF s, ∀ c ∈ line, c ∈ s := by
  induction s using splitLinesCRLF.induct with
  | case1 =>
      intro line hl c hc
      rw [splitLinesCRLF] at hl
      simp at hl
      subst hl
      cases hc
  | case2 rest ih =>
      intro line hl c hc
      rw [splitLinesCRLF] at hl
      rcases List.mem_cons.1 hl with rfl | hl2
      · cases hc
      · exact List.mem_cons_of_mem _ (List.mem_cons_of_mem _ (ih line hl2 c hc))
  | case3 rest ih =>
      intro line hl c hc
      rw [splitLinesCRLF] at hl
      rcases List.mem_cons.1 hl with rfl | hl2
      · cases hc
      · exact List.mem_cons_of_mem _ (ih line hl2 c hc)
  | case4 c0 rest h1 h2 heq ih => exact absurd heq (splitLinesCRLF_ne rest)
  | case5 c0 rest h1 h2 a as heq ih =>
      intro line hl c hc
      rw [splitLinesCRLF] at hl
      rotate_left
      · exact h1
      · exact h2
      rw [heq] at hl
      rcases List.mem_cons.1 hl with rfl | hl2
      · rcases List.mem_cons.1 hc with rfl | hc2
        · exact List.mem_cons_self c rest
        · exact List.mem_cons_of_mem _ (ih a (by rw [heq]; exact List.mem_cons_self a as) c hc2)
      · exact List.mem_cons_of_mem _
          (ih line (by rw [heq]; exact List.mem_cons_of_mem _ hl2) c hc)

/-- A whitespace-only ignore file parses to no lines at all. -/
theorem parseLines_white (l : JStr) (h : (jsTrim l).isEmpty = true) :
    parseLines l = [] := by
  have h0 : jsTrim l = [] := by rwa [List.isEmpty_iff] at h
  have hall := all_white_of_trim_nil l h0
  rw [parseLines]
  rw [List.filter_eq_nil_iff]
  intro a ha
  rw [List.mem_map] at ha
  obtain ⟨line, hline, rfl⟩ := ha
  have : jsTrim line = [] := by
    apply trim_nil_of_all_white
    intro c hc
    exact hall c (mem_splitLinesCRLF l line hline c hc)
  rw [this]
  simp [keepLine]

/-- A string with non-whitespace first and last characters is trim-stable. -/
theorem jsTrim_eq_self (l : JStr)
    (h1 : ∀ c, l.head? = some c → jsWhite c = false)
    (h2 : ∀ c, l.getLast? = some c → jsWhite c = false) :
    jsTrim l = l := by
  rw [jsTrim]
  have hd : l.dropWhile jsWhite = l := by
    cases l with
    | nil => rfl
    | cons c t =>
        rw [List.dropWhile_cons]
        rw [h1 c rfl]
        simp
  rw [hd]
  have hr : l.reverse.dropWhile jsWhite = l.reverse := by
    cases hrev : l.reverse with
    | nil => rfl
    | cons c t =>
        rw [List.dropWhile_cons]
        have hc : l.getLast? = some c := by
          rw [← List.head?_reverse l, hrev]
          rfl
        rw [h2 c hc]
        simp
  rw [hr, List.reverse_reverse]

/-- `pat.endsWith('/')` after appending one character. -/
theorem endsWithSlash_concat (p : JStr) (c : Char) :
    endsWithSlash (p ++ [c]) = (c == '/') := by
  induction p with
  | nil => rfl
  | cons a rest ih =>
      cases rest with
      | nil => rfl
      | cons b r =>
          show endsWithSlash ((b :: r) ++ [c]) = (c == '/')
          exact ih

/-- Substring search distributes over append when both halves miss. -/
theorem contains_append_false (x y : JStr) (c : Char)
    (hx : x.contains c = false) (hy : y.contains c = false) :
    (x ++ y).contains c = false := by
  cases h : (x ++ y).contains c with
  | false => rfl
  | true =>
      rcases List.mem_append.1 (List.elem_iff.mp h) with h1 | h1
      · have hc : x.contains c = true := List.elem_iff.mpr h1
        rw [hx] at hc
        cases hc
      · have hc : y.contains c = true := List.elem_iff.mpr h1
        rw [hy] at hc
        cases hc

/-- A newline-free, trim-stable, kept line that is queued appears verbatim
among the parsed lines of the appended block, whatever the other queued
elements contain. -/
theorem mem_parseLines_block (x : JStr) (hnl : x.contains '\n' = false)
    (ht : jsTrim x = x) (hk : keepLine x = true) :
    ∀ L : List JStr, x ∈ L → x ∈ parseLines (joinNl L ++ [ '\n']) := by
  intro L
  induction L with
  | nil =>
      intro h
      cases h
  | cons y rest ih =>
      intro hmem
      cases rest with
      | nil =>
          rcases List.mem_cons.1 hmem with rfl | h0
          · have hs : joinNl [x] ++ [ '\n'] = x ++ '\n' :: ([] : JStr) := rfl
            rw [hs, parseLines_append]
            apply List.mem_append_left
            rw [parseLines, split_noNl x hnl]
            simp [ht, hk]
          · cases h0
      | cons z r =>
          have hj : joinNl (y :: z :: r) ++ [ '\n'] =
              y ++ '\n' :: (joinNl (z :: r) ++ [ '\n']) := by
            simp [joinNl, List.append_assoc]
          rw [hj, parseLines_append]
          rcases List.mem_cons.1 hmem with rfl | h0
          · apply List.mem_append_left
            rw [parseLines, split_noNl x hnl]
            simp [ht, hk]
          · exact List.mem_append_right _ (ih h0)

/-- `p.split('/')` is never the empty list. -/
theorem splitChar_ne_nil (sep : Char) (s : JStr) : splitChar sep s ≠ [] := by
  induction s with
  | nil => simp [splitChar]
  | cons c rest ih =>
      show (if c == sep then [] :: splitChar sep rest
            else match splitChar sep rest with
              | [] => [[c]]
              | a :: as => (c :: a) :: as) ≠ []
      by_cases hc : (c == sep) = true
      · rw [if_pos hc]
        simp
      · rw [if_neg hc]
        cases h : splitChar sep rest with
        | nil => simp
        | cons a as => simp

/-- More known lines can only make more paths ignored. -/
theorem isIgnored_mono (l₁ l₂ : List JStr) (h : ∀ x ∈ l₁, x ∈ l₂) (p : JStr)
    (hi : isIgnored l₁ p = true) : isIgnored l₂ p = true := by
  rw [isIgnored, List.any_eq_true] at hi ⊢
  obtain ⟨pat, hm, hmt⟩ := hi
  exact ⟨pat, h pat hm, hmt⟩

/-- A known line `p/` marks the path `p` as ignored (the trailing-slash
branch of `isIgnored`). -/
theorem isIgnored_of_dirline (lines : List JStr) (p : JStr)
    (h : p ++ [ '/'] ∈ lines) : isIgnored lines p = true := by
  rw [isIgnored, List.any_eq_true]
  refine ⟨p ++ [ '/'], h, ?_⟩
  have h1 : endsWithSlash (p ++ [ '/']) = true := by
    rw [endsWithSlash_concat]
    rfl
  have h2 : (p == (p ++ [ '/']).dropLast) = true := by
    rw [List.dropLast_concat]
    simp
  simp [lineMatches, h1, h2]

/-- Coverage by the required-pattern loop implies an `isIgnored` match:
the loop's two tests are a subset of the `isIgnored` tests. -/
theorem coverMatches_lineMatches (l req : JStr) (h : coverMatches l req = true) :
    lineMatches l req = true := by
  rw [coverMatches, Bool.or_eq_true] at h
  rcases h with h | h <;> simp [lineMatches, h]

/-! ## Persisting the ignore file: what the rewritten tree looks like -/

/-- After writing an entry, looking its name up finds the written node. -/
theorem findEntry_setEntry_self : ∀ (es : FsEntries) (name : JStr) (node : FsNode),
    findEntry (setEntry es name node) name = some node
  | .nil, name, node => by simp [setEntry, findEntry]
  | .cons n nd rest, name, node => by
      show findEntry (if n = name then .cons n node rest
        else .cons n nd (setEntry rest name node)) name = some node
      by_cases h : n = name
      · rw [if_pos h]
        simp [findEntry, h]
      · rw [if_neg h]
        rw [findEntry, if_neg h]
        exact findEntry_setEntry_self rest name node

/-- Writing one entry leaves lookups of every other name unchanged. -/
theorem findEntry_setEntry_ne : ∀ (es : FsEntries) (name s : JStr) (node : FsNode),
    s ≠ name → findEntry (setEntry es name node) s = findEntry es s
  | .nil, name, s, node, h => by
      simp [setEntry, findEntry]
      intro heq
      exact absurd heq.symm h
  | .cons n nd rest, name, s, node, h => by
      show findEntry (if n = name then .cons n node rest
        else .cons n nd (setEntry rest name node)) s = findEntry (.cons n nd rest) s
      by_cases hn : n = name
      · rw [if_pos hn]
        rw [findEntry, findEntry]
        have hns : ¬n = s := by
          intro hc
          exact h (hc ▸ hn)
        rw [if_neg hns, if_neg hns]
      · rw [if_neg hn]
        rw [findEntry, findEntry]
        by_cases hns : n = s
        · rw [if_pos hns, if_pos hns]
        · rw [if_neg hns, if_neg hns]
          exact findEntry_setEntry_ne rest name s node h

/-- Reading the ignore file back after persisting it yields the written
content. -/
theorem getGitignore_setGitignore (root : FsEntries) (c : JStr) :
    getGitignore (setGitignore root c) = c := by
  rw [getGitignore, setGitignore, findEntry_setEntry_self]

/-- The root's `.gitignore` entry, when present, is a file — the state in
which the source's `writeFileSync` call is meaningful. -/
def gitignoreFileOk (root : FsEntries) : Bool :=
  match findEntry root (str ".gitignore") with
  | some (.dir _) => false
  | _ => true

/-- Rewriting the root ignore file (a file entry, per `gitignoreFileOk`)
does not change the parents the walker finds. -/
theorem foundList_setGitignore (ign : JStr → Bool) (d : JStr) :
    ∀ (es : FsEntries) (c : JStr), gitignoreFileOk es = true →
      foundList ign d (setGitignore es c) = foundList ign d es
  | .nil, c, _ => by
      show foundList ign d (.cons (str ".gitignore") (.file c) .nil) = foundList ign d .nil
      rw [foundList_cons]
      simp [isDir, foundList_nil]
  | .cons n nd rest, c, h => by
      show foundList ign d (if n = str ".gitignore" then .cons n (.file c) rest
        else .cons n nd (setEntry rest (str ".gitignore") (.file c))) =
        foundList ign d (.cons n nd rest)
      by_cases hn : n = str ".gitignore"
      · rw [if_pos hn]
        cases nd with
        | dir sub =>
            exfalso
            rw [gitignoreFileOk, findEntry, if_pos hn] at h
            simp at h
        | file fc =>
            rw [foundList_cons, foundList_cons]
            simp [isDir]
      · rw [if_neg hn]
        have hrest : gitignoreFileOk rest = true := by
          rw [gitignoreFileOk] at h ⊢
          rw [findEntry, if_neg hn] at h
          exact h
        have hih := foundList_setGitignore ign d rest c hrest
        rw [setGitignore] at hih
        rw [foundList_cons, foundList_cons]
        by_cases hc : (ign (joinRel d n) && isDir nd) = true
        · rw [if_pos hc, if_pos hc]
          exact hih
        · rw [if_neg hc, if_neg hc]
          cases nd with
          | file fc => exact hih
          | dir sub =>
              show (if n = str ".git" then
                  (if d.isEmpty then [] else [d]) ++
                    foundList ign d (setEntry rest (str ".gitignore") (.file c))
                else foundList ign (joinRel d n) sub ++
                    foundList ign d (setEntry rest (str ".gitignore") (.file c))) =
                (if n = str ".git" then
                  (if d.isEmpty then [] else [d]) ++ foundList ign d rest
                else foundList ign (joinRel d n) sub ++ foundList ign d rest)
              by_cases hg : n = str ".git"
              · rw [if_pos hg, if_pos hg, hih]
              · rw [if_neg hg, if_neg hg, hih]

/-- Rewriting the root ignore file does not change any multi-segment file
read (in particular no nested `.gitmodules` read). -/
theorem readFileAt_setGitignore (root : FsEntries) (c : JStr) (s1 : JStr)
    (rest : List JStr) (hr : rest ≠ []) (h : gitignoreFileOk root = true) :
    readFileAt (setGitignore root c) (s1 :: rest) = readFileAt root (s1 :: rest) := by
  cases rest with
  | nil => exact absurd rfl hr
  | cons s2 r =>
      rw [readFileAt, readFileAt]
      show (match (match findEntry (setGitignore root c) s1 with
            | some (.dir sub) => lookupSegs sub (s2 :: r)
            | _ => none) with
          | some (.file f) => some f
          | _ => none) =
        (match (match findEntry root s1 with
            | some (.dir sub) => lookupSegs sub (s2 :: r)
            | _ => none) with
          | some (.file f) => some f
          | _ => none)
      by_cases hs : s1 = str ".gitignore"
      · subst hs
        rw [setGitignore, findEntry_setEntry_self]
        rw [gitignoreFileOk] at h
        cases hf : findEntry root (str ".gitignore") with
        | none => rfl
        | some nd =>
            cases nd with
            | file fc => rfl
            | dir sub =>
                rw [hf] at h
                simp at h
      · rw [setGitignore, findEntry_setEntry_ne root (str ".gitignore") s1 (.file c) hs]

/-- Rewriting the root ignore file does not change the root submodule
registry read. -/
theorem gitmodulePaths_setGitignore (root : FsEntries) (c : JStr) :
    gitmodulePaths (setGitignore root c) = gitmodulePaths root := by
  rw [gitmodulePaths, gitmodulePaths, readFileAt, readFileAt]
  have hl : ∀ es : FsEntries, lookupSegs es [ str ".gitmodules"] =
      findEntry es (str ".gitmodules") := fun es => rfl
  rw [hl, hl, setGitignore,
    findEntry_setEntry_ne root (str ".gitignore") (str ".gitmodules") (.file c)
      (by decide)]

/-! ## The two queues of a pass -/

/-- A flattened map with all-empty images is empty. -/
theorem flatten_map_nil {α : Type} (f : α → List JStr) (L : List α)
    (h : ∀ x ∈ L, f x = []) : (L.map f).flatten = [] := by
  rw [List.flatten_eq_nil_iff]
  intro l hl
  rw [List.mem_map] at hl
  obtain ⟨x, hx, rfl⟩ := hl
  exact h x hx

/-- An uncovered required pattern is queued verbatim. -/
theorem mem_requiredQueue_of_uncovered (lines : List JStr) (req : JStr)
    (hreq : req ∈ configPatterns)
    (h : lines.any (fun l => coverMatches l req) = false) :
    req ∈ requiredQueue lines := by
  rw [requiredQueue]
  rw [List.mem_flatten]
  refine ⟨if lines.any (fun l => coverMatches l req) then []
    else [ str "# Added by Autocommiter: ensure " ++ req, req],
    List.mem_map_of_mem _ hreq, ?_⟩
  rw [h]
  simp

/-- The required queue is empty when every required pattern is covered. -/
theorem requiredQueue_nil (lines : List JStr)
    (h : ∀ req ∈ configPatterns, lines.any (fun l => coverMatches l req) = true) :
    requiredQueue lines = [] := by
  rw [requiredQueue]
  apply flatten_map_nil
  intro req hreq
  rw [h req hreq]
  simp

/-- A nested-repo parent that survives all three guards (not a declared
submodule, not ignored, no registry file textually naming it) is queued
with a trailing slash. -/
theorem mem_nestedQueue_of_queued (root : FsEntries) (lines gm : List JStr)
    (parents : List JStr) (p : JStr) (hp : p ∈ parents)
    (h1 : gm.contains p = false) (h2 : isIgnored lines p = false)
    (h3 : (match readFileAt root (splitChar '/' p ++ [ str ".gitmodules"]) with
           | some sub => isSubstring p sub
           | none => false) = false) :
    p ++ [ '/'] ∈ nestedQueue root lines gm parents := by
  rw [nestedQueue]
  rw [List.mem_flatten]
  refine ⟨_, List.mem_map_of_mem _ hp, ?_⟩
  rw [h1, h2]
  simp only [Bool.false_eq_true, if_false]
  cases hr : readFileAt root (splitChar '/' p ++ [ str ".gitmodules"]) with
  | none => simp
  | some sub =>
      rw [hr] at h3
      have h3x : isSubstring p sub = false := h3
      simp [h3x]

/-- A walked parent path that round-trips through the ignore file: it is
non-empty, does not open with the comment mark or whitespace, and holds no
newline, so its appended `p/` line is reparsed verbatim on the next pass. -/
def cleanParent : JStr → Bool
  | [] => false
  | c :: rest => !(c == '#') && !jsWhite c && !((c :: rest).contains '\n')

/-- Every nested-repo parent found by a pass over the tree is clean. -/
def parentsOk (root : FsEntries) : Bool :=
  (walkEntries (isIgnored (parseLines (getGitignore root))) [] root []).all cleanParent

/-- The queued `p/` line of a clean parent survives the split-trim-filter
reparse. -/
theorem dirline_clean (p : JStr) (h : cleanParent p = true) :
    (p ++ [ '/']).contains '\n' = false ∧
    jsTrim (p ++ [ '/']) = p ++ [ '/'] ∧
    keepLine (p ++ [ '/']) = true := by
  cases p with
  | nil => cases h
  | cons c rest =>
      rw [cleanParent] at h
      simp only [Bool.and_eq_true, Bool.not_eq_true'] at h
      obtain ⟨⟨h1, h2⟩, h3⟩ := h
      have hnl : ((c :: rest) ++ [ '/']).contains '\n' = false :=
        contains_append_false (c :: rest) [ '/'] '\n' h3 (by decide)
      refine ⟨hnl, ?_, ?_⟩
      · apply jsTrim_eq_self
        · intro c0 hc0
          rw [List.cons_append] at hc0
          injection hc0 with hc0
          rw [← hc0]
          exact h2
        · intro c0 hc0
          rw [List.getLast?_concat] at hc0
          injection hc0 with hc0
          rw [← hc0]
          rfl
      · rw [keepLine, List.cons_append]
        simp [h1]

/-- What the rewritten ignore file parses to: the old lines followed by
the parsed queued block (when the old content is whitespace-only it parses
to nothing and is dropped whole). -/
theorem parseLines_rewrite (E : JStr) (A : List JStr) :
    parseLines ((if (jsTrim E).isEmpty then [] else E ++ [ '\n']) ++
        joinNl A ++ [ '\n']) =
      parseLines E ++ parseLines (joinNl A ++ [ '\n']) := by
  by_cases ht : (jsTrim E).isEmpty = true
  · rw [if_pos ht, List.nil_append, parseLines_white E ht, List.nil_append]
  · rw [if_neg ht]
    have hassoc : ((E ++ [ '\n']) ++ joinNl A) ++ [ '\n'] =
        E ++ '\n' :: (joinNl A ++ [ '\n']) := by
      simp
    rw [hassoc, parseLines_append]

/-- With nothing queued, a pass returns the tree untouched and reports no
modification. -/
theorem ensureGitignoreSafety_nil (root : FsEntries) (h : toAppendOf root = []) :
    ensureGitignoreSafety root = (root, false) := by
  have hA : (toAppendOf root).isEmpty = true := by
    rw [h]
    rfl
  simp only [ensureGitignoreSafety, hA]
  simp

/-- With something queued, a pass persists old content (dropped when
whitespace-only), an unconditional separator newline, the joined block and
a trailing newline, and reports a modification. -/
theorem ensureGitignoreSafety_eq (root : FsEntries) (h : toAppendOf root ≠ []) :
    ensureGitignoreSafety root =
      (setGitignore root
        ((if (jsTrim (getGitignore root)).isEmpty then []
          else getGitignore root ++ [ '\n']) ++ joinNl (toAppendOf root) ++ [ '\n']),
       true) := by
  have hA : (toAppendOf root).isEmpty = false := by
    cases hc : toAppendOf root with
    | nil => exact absurd hc h
    | cons a as => rfl
  simp only [ensureGitignoreSafety, hA]
  simp

/-- If the pass queued nothing for a required pattern set, every required
pattern was covered. -/
theorem covered_of_requiredQueue_nil (lines : List JStr) (req : JStr)
    (hreq : req ∈ configPatterns) (h : requiredQueue lines = []) :
    lines.any (fun l => coverMatches l req) = true := by
  by_cases hc : lines.any (fun l => coverMatches l req) = true
  · exact hc
  · have hcf : lines.any (fun l => coverMatches l req) = false := by
      cases hx : lines.any (fun l => coverMatches l req)
      · rfl
      · exact absurd hx hc
    have := mem_requiredQueue_of_uncovered lines req hreq hcf
    rw [h] at this
    cases this

/-- The heart of the qualified idempotence: once content whose parsed lines
extend the old ones by the parsed queued block is persisted, a second pass
queues nothing — every required pattern is covered (an old covering line
survives, or the pattern itself is now a line), and every walkable nested
parent was already handled (same registry, more ignore matches, or its own
`p/` line now ignoring it). -/
theorem toAppendOf_after_write (root : FsEntries) (W : JStr)
    (hfile : gitignoreFileOk root = true) (hclean : parentsOk root = true)
    (hW : parseLines W =
      parseLines (getGitignore root) ++ parseLines (joinNl (toAppendOf root) ++ [ '\n'])) :
    toAppendOf (setGitignore root W) = [] := by
  have hg2 : getGitignore (setGitignore root W) = W := getGitignore_setGitignore root W
  have hsub : ∀ l ∈ parseLines (getGitignore root), l ∈ parseLines W := by
    intro l hl
    rw [hW]
    exact List.mem_append_left _ hl
  have hblock : ∀ x, x ∈ toAppendOf root → x.contains '\n' = false → jsTrim x = x →
      keepLine x = true → x ∈ parseLines W := by
    intro x hxA h1 h2 h3
    rw [hW]
    exact List.mem_append_right _ (mem_parseLines_block x h1 h2 h3 _ hxA)
  have hmono : ∀ y, isIgnored (parseLines (getGitignore root)) y = true →
      isIgnored (parseLines W) y = true :=
    fun y hy => isIgnored_mono _ _ hsub y hy
  have hallclean : ∀ p ∈ walkEntries (isIgnored (parseLines (getGitignore root))) [] root [],
      cleanParent p = true := by
    rw [parentsOk] at hclean
    exact List.all_eq_true.mp hclean
  show requiredQueue (parseLines (getGitignore (setGitignore root W))) ++
      nestedQueue (setGitignore root W)
        (parseLines (getGitignore (setGitignore root W)))
        (gitmodulePaths (setGitignore root W))
        (walkEntries (isIgnored (parseLines (getGitignore (setGitignore root W)))) []
          (setGitignore root W) []) = []
  rw [hg2, gitmodulePaths_setGitignore, List.append_eq_nil]
  constructor
  · apply requiredQueue_nil
    intro req hreq
    by_cases hc : (parseLines (getGitignore root)).any (fun l => coverMatches l req) = true
    · rw [List.any_eq_true] at hc ⊢
      obtain ⟨l, hl, hlc⟩ := hc
      exact ⟨l, hsub l hl, hlc⟩
    · have hcf : (parseLines (getGitignore root)).any (fun l => coverMatches l req) = false := by
        cases hx : (parseLines (getGitignore root)).any (fun l => coverMatches l req)
        · rfl
        · exact absurd hx hc
      have hq : req ∈ requiredQueue (parseLines (getGitignore root)) :=
        mem_requiredQueue_of_uncovered _ req hreq hcf
      have hqA : req ∈ toAppendOf root := by
        show req ∈ requiredQueue (parseLines (getGitignore root)) ++
          nestedQueue root (parseLines (getGitignore root)) (gitmodulePaths root)
            (walkEntries (isIgnored (parseLines (getGitignore root))) [] root [])
        exact List.mem_append_left _ hq
      have h4 : req = str "*.env*" ∨ req = str ".env*" ∨ req = str "docx/" ∨
          req = str ".docx/" := by
        simpa [configPatterns] using hreq
      have hcln : req.contains '\n' = false ∧ jsTrim req = req ∧ keepLine req = true := by
        rcases h4 with rfl | rfl | rfl | rfl
        · exact ⟨by decide, by decide, by decide⟩
        · exact ⟨by decide, by decide, by decide⟩
        · exact ⟨by decide, by decide, by decide⟩
        · exact ⟨by decide, by decide, by decide⟩
      rw [List.any_eq_true]
      refine ⟨req, hblock req hqA hcln.1 hcln.2.1 hcln.2.2, ?_⟩
      simp [coverMatches]
  · rw [nestedQueue]
    apply flatten_map_nil
    intro p hpN2
    have hp2 : p ∈ foundList (isIgnored (parseLines W)) [] (setGitignore root W) := by
      rcases (mem_walkEntries _ [] _ [] p).1 hpN2 with h0 | h0
      · cases h0
      · exact h0
    rw [foundList_setGitignore _ [] root W hfile] at hp2
    have hp1 : p ∈ foundList (isIgnored (parseLines (getGitignore root))) [] root :=
      foundList_mono _ _ hmono [] root p hp2
    have hpN1 : p ∈ walkEntries (isIgnored (parseLines (getGitignore root))) [] root [] :=
      (mem_walkEntries _ [] root [] p).2 (Or.inr hp1)
    have hclp : cleanParent p = true := hallclean p hpN1
    by_cases h1 : (gitmodulePaths root).contains p = true
    · have hmem : p ∈ gitmodulePaths root := List.elem_iff.mp h1
      simp [hmem]
    · have h1f : (gitmodulePaths root).contains p = false := by
        cases hx : (gitmodulePaths root).contains p
        · rfl
        · exact absurd hx h1
      have hnm : p ∉ gitmodulePaths root := by
        intro hc
        exact h1 (List.elem_iff.mpr hc)
      by_cases h2 : isIgnored (parseLines W) p = true
      · simp [hnm, h2]
      · have h2b : isIgnored (parseLines W) p = false := by
          cases hx : isIgnored (parseLines W) p
          · rfl
          · exact absurd hx h2
        have h2f : isIgnored (parseLines (getGitignore root)) p = false := by
          cases hx : isIgnored (parseLines (getGitignore root)) p
          · rfl
          · exact absurd (hmono p hx) h2
        have hsegs : readFileAt (setGitignore root W)
            (splitChar '/' p ++ [ str ".gitmodules"]) =
            readFileAt root (splitChar '/' p ++ [ str ".gitmodules"]) := by
          cases hsp : splitChar '/' p with
          | nil => exact absurd hsp (splitChar_ne_nil '/' p)
          | cons s1 t =>
              rw [List.cons_append]
              exact readFileAt_setGitignore root W s1 (t ++ [ str ".gitmodules"])
                (by simp) hfile
        cases hr : readFileAt root (splitChar '/' p ++ [ str ".gitmodules"]) with
        | some sub =>
            by_cases h3 : isSubstring p sub = true
            · rw [hr] at hsegs
              simp [hnm, h2b, hsegs, h3]
            · exfalso
              apply h2
              have h3f : (match readFileAt root (splitChar '/' p ++ [ str ".gitmodules"]) with
                  | some s => isSubstring p s
                  | none => false) = false := by
                rw [hr]
                show isSubstring p sub = false
                cases hx : isSubstring p sub
                · rfl
                · exact absurd hx h3
              have hqp : p ++ [ '/'] ∈ nestedQueue root (parseLines (getGitignore root))
                  (gitmodulePaths root)
                  (walkEntries (isIgnored (parseLines (getGitignore root))) [] root []) :=
                mem_nestedQueue_of_queued root _ _ _ p hpN1 h1f h2f h3f
              have hqA : p ++ [ '/'] ∈ toAppendOf root := by
                show p ++ [ '/'] ∈ requiredQueue (parseLines (getGitignore root)) ++
                  nestedQueue root (parseLines (getGitignore root)) (gitmodulePaths root)
                    (walkEntries (isIgnored (parseLines (getGitignore root))) [] root [])
                exact List.mem_append_right _ hqp
              obtain ⟨d1, d2, d3⟩ := dirline_clean p hclp
              exact isIgnored_of_dirline _ p (hblock _ hqA d1 d2 d3)
        | none =>
            exfalso
            apply h2
            have h3f : (match readFileAt root (splitChar '/' p ++ [ str ".gitmodules"]) with
                | some s => isSubstring p s
                | none => false) = false := by
              rw [hr]
            have hqp : p ++ [ '/'] ∈ nestedQueue root (parseLines (getGitignore root))
                (gitmodulePaths root)
                (walkEntries (isIgnored (parseLines (getGitignore root))) [] root []) :=
              mem_nestedQueue_of_queued root _ _ _ p hpN1 h1f h2f h3f
            have hqA : p ++ [ '/'] ∈ toAppendOf root := by
              show p ++ [ '/'] ∈ requiredQueue (parseLines (getGitignore root)) ++
                nestedQueue root (parseLines (getGitignore root)) (gitmodulePaths root)
                  (walkEntries (isIgnored (parseLines (getGitignore root))) [] root [])
              exact List.mem_append_right _ hqp
            obtain ⟨d1, d2, d3⟩ := dirline_clean p hclp
            exact isIgnored_of_dirline _ p (hblock _ hqA d1 d2 d3)

/-- **C3 (counterexample).** The resolver is not idempotent for every
repository state: over a directory named `#w` holding a nested `.git`,
the first pass appends the line `#w/`, the second pass trims it away as a
comment (lines starting with `#` are filtered), finds the nested repo
again and reports a modification. -/
theorem c3_counterexample :
    (ensureGitignoreSafety (ensureGitignoreSafety
      (FsEntries.cons (str "#w")
        (FsNode.dir (FsEntries.cons (str ".git") (FsNode.dir FsEntries.nil) FsEntries.nil))
        FsEntries.nil)).1).2 = true := by decide

/-- **C3 (amended).** The resolver is idempotent on every repository state
whose root `.gitignore` entry, if any, is a file, and whose walked
nested-repo parents are clean line content (non-empty, not opening with
`#` or whitespace, newline-free): after one pass, a second pass queues
nothing, leaves the tree (hence the ignore file) untouched, and reports no
modification. -/
theorem c3_amended (root : FsEntries)
    (hfile : gitignoreFileOk root = true) (hclean : parentsOk root = true) :
    toAppendOf (ensureGitignoreSafety root).1 = [] ∧
    ensureGitignoreSafety (ensureGitignoreSafety root).1 =
      ((ensureGitignoreSafety root).1, false) := by
  by_cases hA : toAppendOf root = []
  · rw [ensureGitignoreSafety_nil root hA]
    exact ⟨hA, ensureGitignoreSafety_nil root hA⟩
  · rw [ensureGitignoreSafety_eq root hA]
    have h2 : toAppendOf (setGitignore root
        ((if (jsTrim (getGitignore root)).isEmpty then []
          else getGitignore root ++ [ '\n']) ++ joinNl (toAppendOf root) ++ [ '\n'])) = [] :=
      toAppendOf_after_write root _ hfile hclean (parseLines_rewrite _ _)
    exact ⟨h2, ensureGitignoreSafety_nil _ h2⟩

/-- The amended idempotence at a repository holding one nested repo under
`sub`: both hypotheses hold and the second pass is silent. -/
theorem c3_amended_witness :
    gitignoreFileOk (FsEntries.cons (str "sub")
      (FsNode.dir (FsEntries.cons (str ".git") (FsNode.dir FsEntries.nil) FsEntries.nil))
      FsEntries.nil) = true ∧
    parentsOk (FsEntries.cons (str "sub")
      (FsNode.dir (FsEntries.cons (str ".git") (FsNode.dir FsEntries.nil) FsEntries.nil))
      FsEntries.nil) = true ∧
    (toAppendOf (ensureGitignoreSafety (FsEntries.cons (str "sub")
      (FsNode.dir (FsEntries.cons (str ".git") (FsNode.dir FsEntries.nil) FsEntries.nil))
      FsEntries.nil)).1 = [] ∧
    ensureGitignoreSafety (ensureGitignoreSafety (FsEntries.cons (str "sub")
      (FsNode.dir (FsEntries.cons (str ".git") (FsNode.dir FsEntries.nil) FsEntries.nil))
      FsEntries.nil)).1 =
      ((ensureGitignoreSafety (FsEntries.cons (str "sub")
        (FsNode.dir (FsEntries.cons (str ".git") (FsNode.dir FsEntries.nil) FsEntries.nil))
        FsEntries.nil)).1, false)) :=
  ⟨by decide, by decide, c3_amended _ (by decide) (by decide)⟩

/-- **C4.** After one resolver pass, every RequiredProtection pattern is
either covered by the pre-existing lines (present literally or matched by
an existing line's glob translation, the coverage loop's two tests) or
queued for literal appending, and in all cases the resulting pattern set
matches it as ignored. -/
theorem c4_required_protected (root : FsEntries) :
    ∀ req ∈ configPatterns,
      ((parseLines (getGitignore root)).any (fun l => coverMatches l req) = true ∨
        req ∈ toAppendOf root) ∧
      isIgnored (parseLines (getGitignore (ensureGitignoreSafety root).1)) req = true := by
  intro req hreq
  have h4 : req = str "*.env*" ∨ req = str ".env*" ∨ req = str "docx/" ∨
      req = str ".docx/" := by
    simpa [configPatterns] using hreq
  have hcln : req.contains '\n' = false ∧ jsTrim req = req ∧ keepLine req = true := by
    rcases h4 with rfl | rfl | rfl | rfl
    · exact ⟨by decide, by decide, by decide⟩
    · exact ⟨by decide, by decide, by decide⟩
    · exact ⟨by decide, by decide, by decide⟩
    · exact ⟨by decide, by decide, by decide⟩
  by_cases hA : toAppendOf root = []
  · have hrq : requiredQueue (parseLines (getGitignore root)) = [] := by
      have h0 : requiredQueue (parseLines (getGitignore root)) ++
          nestedQueue root (parseLines (getGitignore root)) (gitmodulePaths root)
            (walkEntries (isIgnored (parseLines (getGitignore root))) [] root []) = [] := hA
      exact (List.append_eq_nil.mp h0).1
    have hcov := covered_of_requiredQueue_nil (parseLines (getGitignore root)) req hreq hrq
    refine ⟨Or.inl hcov, ?_⟩
    rw [ensureGitignoreSafety_nil root hA]
    show isIgnored (parseLines (getGitignore root)) req = true
    rw [List.any_eq_true] at hcov
    obtain ⟨l, hl, hlc⟩ := hcov
    rw [isIgnored, List.any_eq_true]
    exact ⟨l, hl, coverMatches_lineMatches l req hlc⟩
  · constructor
    · by_cases hc : (parseLines (getGitignore root)).any (fun l => coverMatches l req) = true
      · exact Or.inl hc
      · refine Or.inr ?_
        have hcf : (parseLines (getGitignore root)).any (fun l => coverMatches l req) = false := by
          cases hx : (parseLines (getGitignore root)).any (fun l => coverMatches l req)
          · rfl
          · exact absurd hx hc
        have hq : req ∈ requiredQueue (parseLines (getGitignore root)) :=
          mem_requiredQueue_of_uncovered _ req hreq hcf
        show req ∈ requiredQueue (parseLines (getGitignore root)) ++
          nestedQueue root (parseLines (getGitignore root)) (gitmodulePaths root)
            (walkEntries (isIgnored (parseLines (getGitignore root))) [] root [])
        exact List.mem_append_left _ hq
    · rw [ensureGitignoreSafety_eq root hA]
      show isIgnored (parseLines (getGitignore (setGitignore root
        ((if (jsTrim (getGitignore root)).isEmpty then []
          else getGitignore root ++ [ '\n']) ++ joinNl (toAppendOf root) ++ [ '\n'])))) req = true
      rw [getGitignore_setGitignore, parseLines_rewrite]
      by_cases hc : (parseLines (getGitignore root)).any (fun l => coverMatches l req) = true
      · rw [List.any_eq_true] at hc
        obtain ⟨l, hl, hlc⟩ := hc
        rw [isIgnored, List.any_eq_true]
        exact ⟨l, List.mem_append_left _ hl, coverMatches_lineMatches l req hlc⟩
      · have hcf : (parseLines (getGitignore root)).any (fun l => coverMatches l req) = false := by
          cases hx : (parseLines (getGitignore root)).any (fun l => coverMatches l req)
          · rfl
          · exact absurd hx hc
        have hq : req ∈ requiredQueue (parseLines (getGitignore root)) :=
          mem_requiredQueue_of_uncovered _ req hreq hcf
        have hqA : req ∈ toAppendOf root := by
          show req ∈ requiredQueue (parseLines (getGitignore root)) ++
            nestedQueue root (parseLines (getGitignore root)) (gitmodulePaths root)
              (walkEntries (isIgnored (parseLines (getGitignore root))) [] root [])
          exact List.mem_append_left _ hq
        have hmem2 : req ∈ parseLines (getGitignore root) ++
            parseLines (joinNl (toAppendOf root) ++ [ '\n']) :=
          List.mem_append_right _
            (mem_parseLines_block req hcln.1 hcln.2.1 hcln.2.2 _ hqA)
        rw [isIgnored, List.any_eq_true]
        refine ⟨req, hmem2, ?_⟩
        simp [lineMatches]

/-- The required-pattern guarantee at the empty repository and the pattern
`*.env*`: it is queued and the resulting lines match it. -/
theorem c4_required_protected_witness :
    ((parseLines (getGitignore FsEntries.nil)).any
        (fun l => coverMatches l (str "*.env*")) = true ∨
      str "*.env*" ∈ toAppendOf FsEntries.nil) ∧
    isIgnored (parseLines (getGitignore (ensureGitignoreSafety FsEntries.nil).1))
      (str "*.env*") = true :=
  c4_required_protected FsEntries.nil (str "*.env*") (by decide)

/-- Modelled from the claim (C6): append the queued lines after the
existing content, inserting a separating newline only when the existing
content is non-empty and not already newline-terminated; with nothing
queued, keep the content untouched. -/
def specPersist (existing : JStr) (app : List JStr) : JStr :=
  if app.isEmpty then existing
  else (if existing.isEmpty || (existing.getLast? == some '\n') then existing
        else existing ++ [ '\n']) ++ joinNl app ++ [ '\n']

/-- **C6 (counterexample).** For the newline-terminated existing content
`"a\n"` the code still inserts its separator (the write is
`existing + '\n' + block + '\n'` whenever the trimmed content is
non-empty), so the persisted file has a blank line the claim's
only-if-unterminated rule forbids. -/
theorem c6_counterexample :
    (toAppendOf (FsEntries.cons (str ".gitignore") (FsNode.file (str "a\n"))
      FsEntries.nil)).isEmpty = false ∧
    getGitignore (ensureGitignoreSafety (FsEntries.cons (str ".gitignore")
        (FsNode.file (str "a\n")) FsEntries.nil)).1 ≠
      specPersist (str "a\n")
        (toAppendOf (FsEntries.cons (str ".gitignore") (FsNode.file (str "a\n"))
          FsEntries.nil)) := by
  refine ⟨by decide, by decide⟩

/-- **C6 (amended).** With nothing queued the pass leaves the tree (hence
the file) byte-for-byte untouched and reports no modification.  With lines
queued, the persisted content is: the existing content followed by one
separator newline whenever its trimmed form is non-empty — even when it
already ends in a newline — or nothing at all when it is empty or
whitespace-only (such content is dropped); then the queued lines joined by
newlines and a trailing newline.  Non-whitespace existing content is
preserved byte-for-byte as a prefix (never reordered or deleted). -/
theorem c6_amended (root : FsEntries) :
    (toAppendOf root = [] → ensureGitignoreSafety root = (root, false)) ∧
    (toAppendOf root ≠ [] →
      (ensureGitignoreSafety root).2 = true ∧
      getGitignore (ensureGitignoreSafety root).1 =
        (if (jsTrim (getGitignore root)).isEmpty then []
         else getGitignore root ++ [ '\n']) ++ joinNl (toAppendOf root) ++ [ '\n'] ∧
      ((jsTrim (getGitignore root)).isEmpty = false →
        getGitignore root <+: getGitignore (ensureGitignoreSafety root).1)) := by
  constructor
  · exact ensureGitignoreSafety_nil root
  · intro hA
    rw [ensureGitignoreSafety_eq root hA]
    refine ⟨rfl, ?_, ?_⟩
    · show getGitignore (setGitignore root
        ((if (jsTrim (getGitignore root)).isEmpty then []
          else getGitignore root ++ [ '\n']) ++ joinNl (toAppendOf root) ++ [ '\n'])) =
        (if (jsTrim (getGitignore root)).isEmpty then []
         else getGitignore root ++ [ '\n']) ++ joinNl (toAppendOf root) ++ [ '\n']
      exact getGitignore_setGitignore root _
    · intro ht
      show getGitignore root <+: getGitignore (setGitignore root
        ((if (jsTrim (getGitignore root)).isEmpty then []
          else getGitignore root ++ [ '\n']) ++ joinNl (toAppendOf root) ++ [ '\n']))
      rw [getGitignore_setGitignore, if_neg (by simp [ht])]
      have hassoc : ((getGitignore root ++ [ '\n']) ++ joinNl (toAppendOf root)) ++ [ '\n'] =
          getGitignore root ++ (([ '\n'] ++ joinNl (toAppendOf root)) ++ [ '\n']) := by
        simp
      rw [hassoc]
      exact List.prefix_append _ _

/-- The amended write equation at a repository whose ignore file is the
newline-terminated `"a\n"`: something is queued, the file is rewritten to
the appended form, and the old content survives as a prefix. -/
theorem c6_amended_witness :
    (ensureGitignoreSafety (FsEntries.cons (str ".gitignore")
      (FsNode.file (str "a\n")) FsEntries.nil)).2 = true ∧
    getGitignore (ensureGitignoreSafety (FsEntries.cons (str ".gitignore")
        (FsNode.file (str "a\n")) FsEntries.nil)).1 =
      (if (jsTrim (getGitignore (FsEntries.cons (str ".gitignore")
          (FsNode.file (str "a\n")) FsEntries.nil))).isEmpty then []
       else getGitignore (FsEntries.cons (str ".gitignore")
          (FsNode.file (str "a\n")) FsEntries.nil) ++ [ '\n']) ++
        joinNl (toAppendOf (FsEntries.cons (str ".gitignore")
          (FsNode.file (str "a\n")) FsEntries.nil)) ++ [ '\n'] ∧
    getGitignore (FsEntries.cons (str ".gitignore")
        (FsNode.file (str "a\n")) FsEntries.nil) <+:
      getGitignore (ensureGitignoreSafety (FsEntries.cons (str ".gitignore")
        (FsNode.file (str "a\n")) FsEntries.nil)).1 := by
  have h := (c6_amended (FsEntries.cons (str ".gitignore")
    (FsNode.file (str "a\n")) FsEntries.nil)).2 (by decide)
  exact ⟨h.1, h.2.1, h.2.2 (by decide)⟩
